import Mathlib

/-
Verification of the zoomer meeting-assistant backend core:
transcript store (src/backend/store.py), tangent strike machine
(src/backend/tangent_detector.py), topic tracker (src/backend/topic_tracker.py)
and retrieval engine (src/backend/qa_engine.py).

Python floats are modelled as exact rationals (ℚ); every division in the
modelled code has integer operands, so `mkRat num den` is exact division.
Python dicts keyed by strings are modelled as association lists (only lookup,
setdefault-append and full rebuild are ever performed on them, so ordering of
keys is observationally irrelevant).  Times are modelled as rationals.
-/

set_option allowUnsafeReducibility true in
attribute [semireducible] Rat.mul Rat.add Rat.sub Rat.inv

namespace Zoomer

/-! ### store.py: tokenization

`_index_tokens` (store.py:41-51): lowercase, split on non-alphanumeric runs,
drop tokens of length ≤ 2 and stopwords.  Duplicates are kept, in order. -/

/-- Whitespace set of Python `str.strip()` (ASCII part). -/
def isPySpace (c : Char) : Bool :=
  c = ' ' || c = '\t' || c = '\n' || c = '\r' || c = '\x0b' || c = '\x0c'

/-- Model of Python `str.strip()`: drop leading and trailing whitespace.
(Lean's own `String.trim` is equivalent on the inputs we use but is not
kernel-computable, so the model uses this structural definition.) -/
def pyStrip (s : String) : String :=
  (((s.toList.dropWhile isPySpace).reverse.dropWhile isPySpace).reverse).asString

/-- Stopword list of store.py (`_STOPWORDS`, store.py:12-38). -/
def storeStopwords : List String :=
  ["the", "a", "an", "and", "or", "but", "to", "of", "in", "on", "for",
   "with", "at", "by", "is", "are", "was", "were", "be", "it", "this",
   "that", "we", "you", "i"]

/-- Character class of the regex `[a-z0-9]+` applied to a lowercased string. -/
def isAlnumLower (c : Char) : Bool :=
  ('a' ≤ c && c ≤ 'z') || ('0' ≤ c && c ≤ '9')

/-- Maximal runs of characters satisfying `p`, in order (the matches of the
regex `[a-z0-9]+` when `p` is `isAlnumLower`).  The accumulator holds the
current run reversed. -/
def runsAux (p : Char → Bool) : List Char → List Char → List (List Char)
  | [], acc => if acc.isEmpty then [] else [acc.reverse]
  | c :: rest, acc =>
    if p c then runsAux p rest (c :: acc)
    else if acc.isEmpty then runsAux p rest []
    else acc.reverse :: runsAux p rest []

/-- All maximal alphanumeric runs of the lowercased string, as strings
(`re.findall(r"[a-z0-9]+", s.lower())`). -/
def alnumRuns (s : String) : List String :=
  (runsAux isAlnumLower (s.toList.map Char.toLower) []).map List.asString

/-- Model of `_index_tokens` (store.py:41-51).  Order and duplicates of the
Python list are preserved. -/
def indexTokens (s : String) : List String :=
  (alnumRuns s).filter (fun t => decide (2 < t.length) && !storeStopwords.contains t)

/-! ### store.py: meeting state -/

/-- Model of `TranscriptUtterance` (store.py:54-58). -/
structure TranscriptUtterance where
  ts : ℚ
  speaker : String
  text : String
deriving DecidableEq, Repr

/-- Model of `MeetingState` (store.py:61-95).  The inverted index
(a Python dict token → list of positions) is an association list; the
rolling buffer (a `deque(maxlen=10)`) is a list holding at most the last
10 lines.  The participant map is omitted: no claim mentions it and no
modelled operation reads it. -/
structure MeetingState where
  bot_id : String
  agenda : String := ""
  recent_finals : List String := []
  transcript_history : List TranscriptUtterance := []
  token_index : List (String × List ℕ) := []
  transcript_max_utterances : ℕ := 0
  current_topic : String := ""
  last_topic_check_ts : ℚ := 0
  last_llm_check_ts : ℚ := 0
  cooldown_until_ts : ℚ := 0
  strike_count : ℕ := 0
  strike_expires_ts : ℚ := 0
  status : String := "joining"
  status_updated_at : ℚ := 0
deriving DecidableEq, Repr

/-- Capacity of the rolling buffer (`deque(maxlen=10)`, store.py:67). -/
def recentMax : ℕ := 10

/-- Appending to a `deque(maxlen=10)`: the oldest entry is evicted once the
buffer holds 10 lines. -/
def rbAppend (rb : List String) (line : String) : List String :=
  let rb' := rb ++ [line]
  rb'.drop (rb'.length - recentMax)

/-- Lookup in the association-list model of a Python dict, with default. -/
def lookupD {α : Type} (m : List (String × α)) (k : String) (d : α) : α :=
  (m.lookup k).getD d

/-- Model of `dict.setdefault(tok, []).append(i)` on the inverted index:
append `i` to the list at key `tok`, creating the key if absent. -/
def indexAppend : List (String × List ℕ) → String → ℕ → List (String × List ℕ)
  | [], tok, i => [(tok, [i])]
  | (t, ps) :: rest, tok, i =>
    if t = tok then (t, ps ++ [i]) :: rest
    else (t, ps) :: indexAppend rest tok i

/-- Model of `_rebuild_index` (store.py:128-132): rebuild the inverted index
from scratch by re-indexing every utterance of the (current) log. -/
def rebuildIndex (history : List TranscriptUtterance) : List (String × List ℕ) :=
  (history.enum.foldl
    (fun idx p => (indexTokens p.2.text).foldl (fun idx tok => indexAppend idx tok p.1) idx)
    [])

/-- Speaker normalization of `append_final_utterance` (store.py:150):
`(speaker or "unknown").strip() or "unknown"`.  A missing (`None`) speaker
behaves like the empty string. -/
def normSpeaker (speaker : String) : String :=
  let s := pyStrip (if speaker = "" then "unknown" else speaker)
  if s = "" then "unknown" else s

/-- Model of `append_final_utterance` (store.py:135-173) on a given state.
The timestamp parameter is the value used by the code (`ts` if given, else
the current time); lazy creation of the state is modelled by
`getOrCreateMeeting` below. -/
def appendFinalUtterance (st : MeetingState) (speaker text : String) (ts : ℚ) :
    MeetingState :=
  let sp := normSpeaker speaker
  let tx := pyStrip text
  if tx = "" then st
  else
    let st := { st with recent_finals := rbAppend st.recent_finals (sp ++ ": " ++ tx) }
    let idx := st.transcript_history.length
    let st := { st with transcript_history :=
      st.transcript_history ++ [TranscriptUtterance.mk ts sp tx] }
    let st := { st with
      token_index := (indexTokens tx).foldl (fun m tok => indexAppend m tok idx) st.token_index }
    if st.transcript_max_utterances ≠ 0 ∧
        st.transcript_max_utterances < st.transcript_history.length then
      let hist := st.transcript_history.drop
        (st.transcript_history.length - st.transcript_max_utterances)
      { st with transcript_history := hist, token_index := rebuildIndex hist }
    else st

/-- Model of `set_agenda` (store.py:114-117) on a resident state. -/
def setAgenda (st : MeetingState) (agenda : String) : MeetingState :=
  { st with agenda := pyStrip agenda }

/-- Model of `set_status` (store.py:120-125) on a resident state. -/
def setStatus (st : MeetingState) (status : String) (now : ℚ) : MeetingState :=
  { st with status := status, status_updated_at := now }

/-- Fresh state created by `get_or_create_meeting` (store.py:102-111) for an
unseen id; `cap` is the parsed `TRANSCRIPT_MAX_UTTERANCES` environment value. -/
def freshMeeting (bot_id : String) (cap : ℕ) : MeetingState :=
  { bot_id := bot_id, transcript_max_utterances := cap }

/-- Model of `get_or_create_meeting` over the global `MEETINGS` map: a lookup
that never fails, lazily creating a defaulted state. -/
def getOrCreateMeeting (meetings : List (String × MeetingState)) (bot_id : String)
    (cap : ℕ) : MeetingState :=
  ((meetings.lookup bot_id).getD (freshMeeting bot_id cap))

/-! ### store.py: helper lemmas -/

/-- Looking up the key just appended to: the position lands at the end of
that key's list. -/
theorem lookupD_indexAppend_same (m : List (String × List ℕ)) (tok : String) (i : ℕ) :
    lookupD (indexAppend m tok i) tok [] = lookupD m tok [] ++ [i] := by
  induction m with
  | nil => simp [indexAppend, lookupD]
  | cons hd tl ih =>
    obtain ⟨t, ps⟩ := hd
    by_cases h : t = tok
    · subst h
      simp [indexAppend, lookupD, List.lookup]
    · simp [indexAppend, h, lookupD, List.lookup, beq_false_of_ne (Ne.symm h)]
      simpa [lookupD] using ih

/-- Appending a position to one key leaves every other key's list unchanged. -/
theorem lookupD_indexAppend_other (m : List (String × List ℕ)) (t tok : String) (i : ℕ)
    (h : t ≠ tok) : lookupD (indexAppend m t i) tok [] = lookupD m tok [] := by
  induction m with
  | nil => simp [indexAppend, lookupD, List.lookup, beq_false_of_ne (Ne.symm h)]
  | cons hd tl ih =>
    obtain ⟨t', ps⟩ := hd
    by_cases h' : t' = t
    · subst h'
      simp [indexAppend, lookupD, List.lookup, beq_false_of_ne (Ne.symm h)]
    · simp only [indexAppend, if_neg h']
      by_cases h'' : t' = tok
      · subst h''
        simp [lookupD, List.lookup]
      · simp [lookupD, List.lookup, beq_false_of_ne (Ne.symm h'')]
        simpa [lookupD] using ih

/-- Indexing a token list at position `i` appends `i` to each token's list
once per occurrence of the token. -/
theorem lookupD_foldl_indexAppend (toks : List String) (m : List (String × List ℕ))
    (i : ℕ) (tok : String) :
    lookupD (toks.foldl (fun m t => indexAppend m t i) m) tok [] =
      lookupD m tok [] ++ List.replicate (toks.count tok) i := by
  induction toks generalizing m with
  | nil => simp
  | cons t rest ih =>
    by_cases h : t = tok
    · subst h
      rw [List.foldl_cons, ih, lookupD_indexAppend_same]
      simp [List.replicate_succ, List.append_assoc]
    · rw [List.foldl_cons, ih, lookupD_indexAppend_other _ _ _ _ h,
        List.count_cons_of_ne (Ne.symm h)]

/-- Index validity: every position stored in the inverted index is a valid
index into a log of length `n`. -/
def indexValidUpTo (n : ℕ) (m : List (String × List ℕ)) : Prop :=
  ∀ tok ps, (tok, ps) ∈ m → ∀ i ∈ ps, i < n

/-- The store invariant of the spec: every position in the inverted index is
a valid index into the current transcript log. -/
def indexValid (st : MeetingState) : Prop :=
  indexValidUpTo st.transcript_history.length st.token_index

theorem indexValidUpTo_mono {n n' : ℕ} {m : List (String × List ℕ)}
    (h : indexValidUpTo n m) (hle : n ≤ n') : indexValidUpTo n' m :=
  fun tok ps hm i hi => lt_of_lt_of_le (h tok ps hm i hi) hle

/-- Entries of `indexAppend m tok i` come from `m` unchanged, from `m` with
`i` appended (at the key `tok`), or are the fresh entry `(tok, [i])`. -/
theorem mem_indexAppend {m : List (String × List ℕ)} {tok : String} {i : ℕ}
    {t : String} {ps : List ℕ} (h : (t, ps) ∈ indexAppend m tok i) :
    (t, ps) ∈ m ∨ (∃ ps', (t, ps') ∈ m ∧ ps = ps' ++ [i]) ∨ (t = tok ∧ ps = [i]) := by
  induction m with
  | nil =>
    simp [indexAppend] at h
    exact Or.inr (Or.inr h)
  | cons hd tl ih =>
    obtain ⟨t', ps'⟩ := hd
    by_cases h' : t' = tok
    · subst h'
      have hrw : indexAppend ((t', ps') :: tl) t' i = (t', ps' ++ [i]) :: tl := by
        simp [indexAppend]
      rw [hrw] at h
      rcases List.mem_cons.mp h with hpair | htail
      · have h1 : t = t' := congrArg Prod.fst hpair
        have h2 : ps = ps' ++ [i] := congrArg Prod.snd hpair
        subst h1
        subst h2
        exact Or.inr (Or.inl ⟨ps', by simp⟩)
      · exact Or.inl (List.mem_cons_of_mem _ htail)
    · simp only [indexAppend, if_neg h', List.mem_cons] at h
      rcases h with h | h
      · exact Or.inl (by simp [h])
      · rcases ih h with h | ⟨ps'', hm, rfl⟩ | h
        · exact Or.inl (List.mem_cons_of_mem _ h)
        · exact Or.inr (Or.inl ⟨ps'', List.mem_cons_of_mem _ hm, rfl⟩)
        · exact Or.inr (Or.inr h)

theorem indexValidUpTo_indexAppend {n : ℕ} {m : List (String × List ℕ)}
    (h : indexValidUpTo n m) (tok : String) {i : ℕ} (hi : i < n) :
    indexValidUpTo n (indexAppend m tok i) := by
  intro t ps hm j hj
  rcases mem_indexAppend hm with hmem | ⟨ps', hmem, hps⟩ | ⟨heq, hps⟩
  · exact h t ps hmem j hj
  · subst hps
    rcases List.mem_append.mp hj with hj | hj
    · exact h t ps' hmem j hj
    · exact (List.mem_singleton.mp hj) ▸ hi
  · subst hps
    exact (List.mem_singleton.mp hj) ▸ hi

theorem indexValidUpTo_foldl {n : ℕ} {m : List (String × List ℕ)}
    (toks : List String) (h : indexValidUpTo n m) {i : ℕ} (hi : i < n) :
    indexValidUpTo n (toks.foldl (fun m t => indexAppend m t i) m) := by
  induction toks generalizing m with
  | nil => exact h
  | cons t rest ih => exact ih (indexValidUpTo_indexAppend h t hi)

theorem indexValidUpTo_nil (n : ℕ) : indexValidUpTo n [] := by
  intro tok ps hm
  simp at hm

/-- Generalized rebuild validity, over `enumFrom`. -/
theorem indexValidUpTo_enumFrom_foldl (l : List TranscriptUtterance) (k : ℕ)
    (m : List (String × List ℕ)) (h : indexValidUpTo (k + l.length) m) :
    indexValidUpTo (k + l.length)
      ((l.enumFrom k).foldl
        (fun idx p => (indexTokens p.2.text).foldl (fun idx tok => indexAppend idx tok p.1) idx)
        m) := by
  induction l generalizing k m with
  | nil => simpa using h
  | cons u rest ih =>
    simp only [List.enumFrom, List.foldl_cons]
    have hk : k < k + (u :: rest).length := by simp
    have h1 := indexValidUpTo_foldl (indexTokens u.text) h hk
    have := ih (k + 1) _ (by
      have : k + (u :: rest).length = (k + 1) + rest.length := by
        simp [List.length_cons]
        omega
      exact this ▸ h1)
    have heq : k + (u :: rest).length = (k + 1) + rest.length := by
      simp [List.length_cons]
      omega
    exact heq ▸ this

/-- Full index rebuild postcondition: every position referenced by the rebuilt
index is a valid index into the log it was rebuilt from. -/
theorem rebuildIndex_valid (history : List TranscriptUtterance) :
    indexValidUpTo history.length (rebuildIndex history) := by
  have := indexValidUpTo_enumFrom_foldl history 0 [] (indexValidUpTo_nil _)
  simpa [rebuildIndex, List.enum] using this

/-- Dropping fewer elements than the length preserves the last element. -/
theorem getLast?_drop_of_lt {α : Type} (l : List α) (n : ℕ) (h : n < l.length) :
    (l.drop n).getLast? = l.getLast? := by
  conv_rhs => rw [← List.take_append_drop n l]
  rw [List.getLast?_append]
  have hne : l.drop n ≠ [] := by
    intro hnil
    have := congrArg List.length hnil
    simp at this
    omega
  cases hlast : (l.drop n).getLast? with
  | none => exact absurd (List.getLast?_eq_none_iff.mp hlast) hne
  | some x => simp

/-- Characterization of an accepted append when the capacity cap is
unconfigured or not yet reached: no eviction happens. -/
theorem appendFinalUtterance_accepted (st : MeetingState) (sp text : String) (ts : ℚ)
    (hne : pyStrip text ≠ "")
    (hcap : st.transcript_max_utterances = 0 ∨
      st.transcript_history.length + 1 ≤ st.transcript_max_utterances) :
    appendFinalUtterance st sp text ts = { st with
      recent_finals := rbAppend st.recent_finals (normSpeaker sp ++ ": " ++ pyStrip text),
      transcript_history :=
        st.transcript_history ++ [TranscriptUtterance.mk ts (normSpeaker sp) (pyStrip text)],
      token_index := (indexTokens (pyStrip text)).foldl
        (fun m tok => indexAppend m tok st.transcript_history.length) st.token_index } := by
  unfold appendFinalUtterance
  rw [if_neg hne]
  have hcond : ¬(st.transcript_max_utterances ≠ 0 ∧
      st.transcript_max_utterances <
        (st.transcript_history ++ [TranscriptUtterance.mk ts (normSpeaker sp) (pyStrip text)]).length) := by
    simp only [List.length_append, List.length_cons, List.length_nil]
    rcases hcap with h | h
    · intro hc
      exact hc.1 h
    · intro hc
      omega
  simp only [if_neg hcond]

theorem normSpeaker_eq (sp : String) :
    normSpeaker sp = if pyStrip sp = "" then "unknown" else pyStrip sp := by
  unfold normSpeaker
  by_cases h : sp = ""
  · subst h
    decide
  · simp [h]

/-- Claim C1 (amended).  An append whose text is empty or whitespace-only
after trimming leaves the meeting state unchanged.  An append of non-empty
text increases the log length by exactly 1 and maps every normalized token of
the text to the newly assigned position — provided no capacity cap is
configured or the log stays within the cap (with a configured cap exceeded,
the oldest entry is evicted instead and the log length stays at the cap; see
the counterexample). -/
theorem append_log_growth_and_index_amended (st : MeetingState) (sp text : String) (ts : ℚ) :
    (pyStrip text = "" → appendFinalUtterance st sp text ts = st) ∧
    (pyStrip text ≠ "" →
      (st.transcript_max_utterances = 0 ∨
        st.transcript_history.length + 1 ≤ st.transcript_max_utterances) →
      (appendFinalUtterance st sp text ts).transcript_history.length
          = st.transcript_history.length + 1 ∧
      ∀ tok ∈ indexTokens (pyStrip text),
        st.transcript_history.length ∈
          lookupD (appendFinalUtterance st sp text ts).token_index tok []) := by
  constructor
  · intro he
    unfold appendFinalUtterance
    rw [if_pos he]
  · intro hne hcap
    rw [appendFinalUtterance_accepted st sp text ts hne hcap]
    constructor
    · simp
    · intro tok htok
      simp only
      rw [lookupD_foldl_indexAppend]
      have hcount : 0 < (indexTokens (pyStrip text)).count tok := List.count_pos_iff.mpr htok
      apply List.mem_append.mpr
      right
      exact List.mem_replicate.mpr ⟨by omega, rfl⟩

/-- Claim C1 witness: a whitespace append is a no-op, and an accepted append
on a fresh (uncapped) state grows the log to length 1 and indexes the token
"hello" at position 0. -/
theorem append_log_growth_and_index_amended_witness :
    (pyStrip " " = "" → appendFinalUtterance (freshMeeting "b" 0) "A" " " 3
        = freshMeeting "b" 0) ∧
    (pyStrip "hello world" ≠ "" →
      ((freshMeeting "b" 0).transcript_max_utterances = 0 ∨
        (freshMeeting "b" 0).transcript_history.length + 1
          ≤ (freshMeeting "b" 0).transcript_max_utterances) →
      (appendFinalUtterance (freshMeeting "b" 0) "A" "hello world" 3).transcript_history.length
          = (freshMeeting "b" 0).transcript_history.length + 1 ∧
      ∀ tok ∈ indexTokens (pyStrip "hello world"),
        (freshMeeting "b" 0).transcript_history.length ∈
          lookupD (appendFinalUtterance (freshMeeting "b" 0) "A" "hello world" 3).token_index
            tok []) :=
  ⟨(append_log_growth_and_index_amended (freshMeeting "b" 0) "A" " " 3).1,
   (append_log_growth_and_index_amended (freshMeeting "b" 0) "A" "hello world" 3).2⟩

/-- Claim C1 counterexample: with capacity cap 1 and the log already at the
cap, an accepted append of non-empty text leaves the log length at 1 (the
oldest entry is evicted), so the log length does not increase by 1. -/
theorem append_log_growth_capped_counterexample :
    (pyStrip "gamma delta" ≠ "") ∧
    (appendFinalUtterance (freshMeeting "b" 1) "A" "alpha beta" 1).transcript_history.length
      = 1 ∧
    (appendFinalUtterance
        (appendFinalUtterance (freshMeeting "b" 1) "A" "alpha beta" 1)
        "B" "gamma delta" 2).transcript_history.length = 1 := by
  refine ⟨by decide, ?_, ?_⟩ <;> decide

/-- Claim C2.  Every store operation preserves the index-validity invariant:
all positions referenced by the inverted index are valid indices into the
current transcript log.  The last conjunct is the eviction postcondition:
a full rebuild from a (truncated) log only references valid positions. -/
theorem store_ops_preserve_index_validity :
    (∀ st sp text ts, indexValid st → indexValid (appendFinalUtterance st sp text ts)) ∧
    (∀ st agenda, indexValid st → indexValid (setAgenda st agenda)) ∧
    (∀ st status now, indexValid st → indexValid (setStatus st status now)) ∧
    (∀ meetings bot_id cap,
      (∀ b s, (b, s) ∈ meetings → indexValid s) →
      indexValid (getOrCreateMeeting meetings bot_id cap)) ∧
    (∀ history : List TranscriptUtterance,
      indexValidUpTo history.length (rebuildIndex history)) := by
  refine ⟨?_, ?_, ?_, ?_, rebuildIndex_valid⟩
  · intro st sp text ts h
    by_cases hne : pyStrip text = ""
    · unfold appendFinalUtterance
      rw [if_pos hne]
      exact h
    · unfold appendFinalUtterance
      rw [if_neg hne]
      by_cases hcond : (st.transcript_max_utterances ≠ 0 ∧
          st.transcript_max_utterances <
            (st.transcript_history
              ++ [TranscriptUtterance.mk ts (normSpeaker sp) (pyStrip text)]).length)
      · simp only [if_pos hcond]
        exact rebuildIndex_valid _
      · simp only [if_neg hcond]
        unfold indexValid
        simp only [List.length_append, List.length_cons, List.length_nil]
        apply indexValidUpTo_foldl
        · exact indexValidUpTo_mono h (by omega)
        · omega
  · intro st agenda h
    exact h
  · intro st status now h
    exact h
  · intro meetings bot_id cap hall
    unfold getOrCreateMeeting
    cases hl : meetings.lookup bot_id with
    | none =>
      simp only [hl, Option.getD_none]
      intro tok ps hm
      simp [freshMeeting] at hm
    | some s =>
      simp only [hl, Option.getD_some]
      obtain ⟨l₁, l₂, hsplit, -⟩ := List.lookup_eq_some_iff.mp hl
      exact hall bot_id s (hsplit ▸ List.mem_append.mpr (Or.inr (List.mem_cons_self _ _)))

/-- Claim C2 witness: the invariant holds after appending to a fresh state,
whose index is empty. -/
theorem store_ops_preserve_index_validity_witness :
    indexValid (appendFinalUtterance (freshMeeting "w" 0) "A" "hello world" 1) :=
  store_ops_preserve_index_validity.1 (freshMeeting "w" 0) "A" "hello world" 1
    (by
      intro tok ps hm
      simp [freshMeeting] at hm)

/-- Claim C7 (amended).  For an accepted append (below any configured cap),
the new log position is appended to a token's index list once per
*occurrence* of that token in the normalized token list of the text — not
once per distinct token.  A text repeating a token therefore stores a
repeated position (see the counterexample); every other token's list is
unchanged (`count = 0`). -/
theorem append_index_positions_per_occurrence (st : MeetingState) (sp text : String)
    (ts : ℚ) (hne : pyStrip text ≠ "")
    (hcap : st.transcript_max_utterances = 0 ∨
      st.transcript_history.length + 1 ≤ st.transcript_max_utterances)
    (tok : String) :
    lookupD (appendFinalUtterance st sp text ts).token_index tok []
      = lookupD st.token_index tok []
        ++ List.replicate ((indexTokens (pyStrip text)).count tok)
            st.transcript_history.length := by
  rw [appendFinalUtterance_accepted st sp text ts hne hcap]
  exact lookupD_foldl_indexAppend _ _ _ _

/-- Claim C7 witness: appending "hello world hello" to a fresh state maps the
token "hello" to two copies of position 0. -/
theorem append_index_positions_per_occurrence_witness :
    lookupD (appendFinalUtterance (freshMeeting "b" 0) "A" "hello world hello" 0).token_index
        "hello" []
      = lookupD (freshMeeting "b" 0).token_index "hello" []
        ++ List.replicate ((indexTokens (pyStrip "hello world hello")).count "hello")
            (freshMeeting "b" 0).transcript_history.length :=
  append_index_positions_per_occurrence (freshMeeting "b" 0) "A" "hello world hello" 0
    (by decide) (Or.inl rfl) "hello"

/-- Claim C7 counterexample: a text containing the same normalized token
twice contributes the new position to that token's index list twice, so an
index list can contain a repeated position. -/
theorem append_index_duplicate_position_counterexample :
    lookupD (appendFinalUtterance (freshMeeting "b" 0) "A" "hello hello" 0).token_index
      "hello" [] = [0, 0] := by
  decide

/-- Claim C10.  For every accepted append the stored speaker label is never
empty: an empty or whitespace-only speaker is normalized to "unknown", any
other speaker is stored trimmed, and the same normalized speaker appears in
the log entry and in the rolling-buffer line "speaker: text". -/
theorem append_speaker_never_empty (st : MeetingState) (sp text : String) (ts : ℚ)
    (hne : pyStrip text ≠ "") :
    (if pyStrip sp = "" then "unknown" else pyStrip sp) ≠ "" ∧
    (appendFinalUtterance st sp text ts).transcript_history.getLast?
      = some (TranscriptUtterance.mk ts
          (if pyStrip sp = "" then "unknown" else pyStrip sp) (pyStrip text)) ∧
    (appendFinalUtterance st sp text ts).recent_finals.getLast?
      = some ((if pyStrip sp = "" then "unknown" else pyStrip sp) ++ ": " ++ pyStrip text) := by
  have hsp : normSpeaker sp = if pyStrip sp = "" then "unknown" else pyStrip sp := normSpeaker_eq sp
  refine ⟨?_, ?_, ?_⟩
  · by_cases h : pyStrip sp = ""
    · simp [h]
    · simp [h]
  · unfold appendFinalUtterance
    rw [if_neg hne]
    by_cases hcond : (st.transcript_max_utterances ≠ 0 ∧
        st.transcript_max_utterances <
          (st.transcript_history
            ++ [TranscriptUtterance.mk ts (normSpeaker sp) (pyStrip text)]).length)
    · simp only [if_pos hcond]
      rw [getLast?_drop_of_lt _ _ (by
        simp only [List.length_append, List.length_cons, List.length_nil]
        omega)]
      rw [List.getLast?_concat, hsp]
    · simp only [if_neg hcond]
      rw [List.getLast?_concat, hsp]
  · unfold appendFinalUtterance
    rw [if_neg hne]
    by_cases hcond : (st.transcript_max_utterances ≠ 0 ∧
        st.transcript_max_utterances <
          (st.transcript_history
            ++ [TranscriptUtterance.mk ts (normSpeaker sp) (pyStrip text)]).length)
    · simp only [if_pos hcond, rbAppend]
      rw [getLast?_drop_of_lt _ _ (by
        simp only [List.length_append, List.length_cons, List.length_nil]
        have : (0:ℕ) < recentMax := by decide
        omega)]
      rw [List.getLast?_concat, hsp]
    · simp only [if_neg hcond, rbAppend]
      rw [getLast?_drop_of_lt _ _ (by
        simp only [List.length_append, List.length_cons, List.length_nil]
        have : (0:ℕ) < recentMax := by decide
        omega)]
      rw [List.getLast?_concat, hsp]

/-- Claim C10 witness: a padded speaker name is stored trimmed in both the
log entry and the rolling-buffer line. -/
theorem append_speaker_never_empty_witness :
    (if pyStrip "  Bob " = "" then "unknown" else pyStrip "  Bob ") ≠ "" ∧
    (appendFinalUtterance (freshMeeting "m" 0) "  Bob " " hi  there " 5).transcript_history.getLast?
      = some (TranscriptUtterance.mk 5
          (if pyStrip "  Bob " = "" then "unknown" else pyStrip "  Bob ")
          (pyStrip " hi  there ")) ∧
    (appendFinalUtterance (freshMeeting "m" 0) "  Bob " " hi  there " 5).recent_finals.getLast?
      = some ((if pyStrip "  Bob " = "" then "unknown" else pyStrip "  Bob ")
          ++ ": " ++ pyStrip " hi  there ") :=
  append_speaker_never_empty (freshMeeting "m" 0) "  Bob " " hi  there " 5 (by decide)

/-! ### tangent_detector.py: strike/cooldown state machine -/

/-- Configuration of `TangentDetector.__init__` (tangent_detector.py:11-16),
at the environment defaults: confidence threshold 0.7, cooldown 45 s, strike
window 20 s. -/
structure TangentConfig where
  conf_threshold : ℚ := mkRat 7 10
  check_every_s : ℚ := 5
  cooldown_s : ℚ := 45
  strike_window_s : ℚ := 20
deriving DecidableEq, Repr

/-- Default-environment configuration of the tangent detector. -/
def defaultTangentConfig : TangentConfig := {}

/-- Model of `TangentResult` (llm_client.py:12-17). -/
structure TangentResult where
  on_topic : Bool
  confidence : ℚ
  reason : String := ""
  message : String := ""
deriving DecidableEq, Repr

/-- Model of `register_strike_and_should_intervene`
(tangent_detector.py:55-82).  Returns the intervention decision and the
updated meeting state. -/
def registerStrike (cfg : TangentConfig) (st : MeetingState) (result : TangentResult)
    (now : ℚ) : Bool × MeetingState :=
  if now < st.cooldown_until_ts then (false, st)
  else if result.on_topic ∨ result.confidence < cfg.conf_threshold then
    (false, { st with strike_count := 0, strike_expires_ts := 0 })
  else
    let st := if st.strike_expires_ts < now then { st with strike_count := 0 } else st
    let st := { st with
      strike_count := st.strike_count + 1,
      strike_expires_ts := now + cfg.strike_window_s }
    if 2 ≤ st.strike_count then
      (true, { st with
        cooldown_until_ts := now + cfg.cooldown_s,
        strike_count := 0,
        strike_expires_ts := 0 })
    else (false, st)

/-- Sequential processing of classification results through the strike
machine, collecting the intervention decisions. -/
def runStrikes (cfg : TangentConfig) (st : MeetingState) :
    List (ℚ × TangentResult) → List Bool × MeetingState
  | [] => ([], st)
  | (t, r) :: rest =>
    let p := registerStrike cfg st r t
    let q := runStrikes cfg p.2 rest
    (p.1 :: q.1, q.2)

/-- Branch characterization: during an active cooldown the strike transition
ignores the result and changes nothing. -/
theorem registerStrike_cooldown_eq (cfg : TangentConfig) (st : MeetingState)
    (r : TangentResult) (now : ℚ) (h : now < st.cooldown_until_ts) :
    registerStrike cfg st r now = (false, st) := by
  unfold registerStrike
  rw [if_pos h]

/-- Branch characterization: an on-topic or under-confident result resets the
strike count and clears the window. -/
theorem registerStrike_reset_eq (cfg : TangentConfig) (st : MeetingState)
    (r : TangentResult) (now : ℚ) (hcd : st.cooldown_until_ts ≤ now)
    (h : r.on_topic ∨ r.confidence < cfg.conf_threshold) :
    registerStrike cfg st r now
      = (false, { st with strike_count := 0, strike_expires_ts := 0 }) := by
  unfold registerStrike
  rw [if_neg (not_lt.mpr hcd), if_pos h]

/-- Branch characterization: a confident off-topic result on a state with
strike count 0 records a first strike and opens the window. -/
theorem registerStrike_first_strike_eq (cfg : TangentConfig) (st : MeetingState)
    (r : TangentResult) (now : ℚ) (hcount : st.strike_count = 0)
    (hcd : st.cooldown_until_ts ≤ now) (hoff : r.on_topic = false)
    (hconf : cfg.conf_threshold ≤ r.confidence) :
    registerStrike cfg st r now
      = (false, { st with
          strike_count := 1,
          strike_expires_ts := now + cfg.strike_window_s }) := by
  unfold registerStrike
  rw [if_neg (not_lt.mpr hcd),
    if_neg (by simp [hoff, not_lt.mpr hconf])]
  by_cases hw : st.strike_expires_ts < now
  · simp only [if_pos hw, hcount]
    norm_num
  · simp only [if_neg hw, hcount]
    norm_num

/-- Branch characterization: a confident off-topic result on a state with one
open strike whose window has not expired triggers the intervention and moves
the machine to cooldown. -/
theorem registerStrike_second_strike_eq (cfg : TangentConfig) (st : MeetingState)
    (r : TangentResult) (now : ℚ) (hcount : st.strike_count = 1)
    (hcd : st.cooldown_until_ts ≤ now) (hwin : now ≤ st.strike_expires_ts)
    (hoff : r.on_topic = false) (hconf : cfg.conf_threshold ≤ r.confidence) :
    registerStrike cfg st r now
      = (true, { st with
          cooldown_until_ts := now + cfg.cooldown_s,
          strike_count := 0,
          strike_expires_ts := 0 }) := by
  unfold registerStrike
  rw [if_neg (not_lt.mpr hcd),
    if_neg (by simp [hoff, not_lt.mpr hconf]),
    if_neg (not_lt.mpr hwin)]
  simp only [hcount]
  norm_num

/-- Claim C3.  Starting from strike count 0 with no active cooldown, two
confident off-topic classifications, the second arriving before the strike
window opened by the first expires, yield exactly one intervention (on the
second call), leaving strike count 0, a cleared window, and cooldown expiry
`t2 + 45`.  If an on-topic classification is processed between two off-topic
ones, the count is reset to 0 and neither off-topic call intervenes. -/
theorem tangent_two_strikes_one_intervention (st : MeetingState)
    (r1 r2 rOn r3 : TangentResult) (t1 t2 t3 : ℚ)
    (hcount : st.strike_count = 0) (hcd : st.cooldown_until_ts ≤ t1)
    (h12 : t1 ≤ t2) (h23 : t2 ≤ t3)
    (hr1 : r1.on_topic = false ∧ defaultTangentConfig.conf_threshold ≤ r1.confidence)
    (hr2 : r2.on_topic = false ∧ defaultTangentConfig.conf_threshold ≤ r2.confidence)
    (hr3 : r3.on_topic = false ∧ defaultTangentConfig.conf_threshold ≤ r3.confidence)
    (hOn : rOn.on_topic = true)
    (hwin : t2 < t1 + defaultTangentConfig.strike_window_s) :
    ((registerStrike defaultTangentConfig st r1 t1).1 = false ∧
      (registerStrike defaultTangentConfig
          (registerStrike defaultTangentConfig st r1 t1).2 r2 t2).1 = true ∧
      (registerStrike defaultTangentConfig
          (registerStrike defaultTangentConfig st r1 t1).2 r2 t2).2.strike_count = 0 ∧
      (registerStrike defaultTangentConfig
          (registerStrike defaultTangentConfig st r1 t1).2 r2 t2).2.strike_expires_ts = 0 ∧
      (registerStrike defaultTangentConfig
          (registerStrike defaultTangentConfig st r1 t1).2 r2 t2).2.cooldown_until_ts
        = t2 + defaultTangentConfig.cooldown_s) ∧
    ((registerStrike defaultTangentConfig
        (registerStrike defaultTangentConfig st r1 t1).2 rOn t2).2.strike_count = 0 ∧
      (registerStrike defaultTangentConfig
        (registerStrike defaultTangentConfig st r1 t1).2 rOn t2).1 = false ∧
      (registerStrike defaultTangentConfig
        (registerStrike defaultTangentConfig
          (registerStrike defaultTangentConfig st r1 t1).2 rOn t2).2 r3 t3).1 = false) := by
  have hs1 := registerStrike_first_strike_eq defaultTangentConfig st r1 t1 hcount hcd
    hr1.1 hr1.2
  constructor
  · rw [hs1]
    have hs2 := registerStrike_second_strike_eq defaultTangentConfig
      { st with strike_count := 1, strike_expires_ts := t1 + defaultTangentConfig.strike_window_s }
      r2 t2 rfl (le_trans hcd h12) (le_of_lt hwin) hr2.1 hr2.2
    rw [hs2]
    exact ⟨by simp [hs1], rfl, rfl, rfl, rfl⟩
  · rw [hs1]
    have hsOn := registerStrike_reset_eq defaultTangentConfig
      { st with strike_count := 1, strike_expires_ts := t1 + defaultTangentConfig.strike_window_s }
      rOn t2 (le_trans hcd h12) (Or.inl (by simp [hOn]))
    rw [hsOn]
    refine ⟨rfl, rfl, ?_⟩
    have hs3 := registerStrike_first_strike_eq defaultTangentConfig
      { st with strike_count := 0, strike_expires_ts := 0 }
      r3 t3 rfl (le_trans hcd (le_trans h12 h23)) hr3.1 hr3.2
    rw [hs3]

/-- Claim C3 witness: concrete runs of both scenarios with times 100, 110,
120 and confidence 0.9. -/
theorem tangent_two_strikes_one_intervention_witness :
    ((registerStrike defaultTangentConfig (freshMeeting "b" 0)
        (TangentResult.mk false (mkRat 9 10) "" "") 100).1 = false ∧
      (registerStrike defaultTangentConfig
          (registerStrike defaultTangentConfig (freshMeeting "b" 0)
            (TangentResult.mk false (mkRat 9 10) "" "") 100).2
          (TangentResult.mk false (mkRat 9 10) "" "") 110).1 = true ∧
      (registerStrike defaultTangentConfig
          (registerStrike defaultTangentConfig (freshMeeting "b" 0)
            (TangentResult.mk false (mkRat 9 10) "" "") 100).2
          (TangentResult.mk false (mkRat 9 10) "" "") 110).2.strike_count = 0 ∧
      (registerStrike defaultTangentConfig
          (registerStrike defaultTangentConfig (freshMeeting "b" 0)
            (TangentResult.mk false (mkRat 9 10) "" "") 100).2
          (TangentResult.mk false (mkRat 9 10) "" "") 110).2.strike_expires_ts = 0 ∧
      (registerStrike defaultTangentConfig
          (registerStrike defaultTangentConfig (freshMeeting "b" 0)
            (TangentResult.mk false (mkRat 9 10) "" "") 100).2
          (TangentResult.mk false (mkRat 9 10) "" "") 110).2.cooldown_until_ts
        = 110 + defaultTangentConfig.cooldown_s) ∧
    ((registerStrike defaultTangentConfig
        (registerStrike defaultTangentConfig (freshMeeting "b" 0)
          (TangentResult.mk false (mkRat 9 10) "" "") 100).2
        (TangentResult.mk true (mkRat 9 10) "" "") 110).2.strike_count = 0 ∧
      (registerStrike defaultTangentConfig
        (registerStrike defaultTangentConfig (freshMeeting "b" 0)
          (TangentResult.mk false (mkRat 9 10) "" "") 100).2
        (TangentResult.mk true (mkRat 9 10) "" "") 110).1 = false ∧
      (registerStrike defaultTangentConfig
        (registerStrike defaultTangentConfig
          (registerStrike defaultTangentConfig (freshMeeting "b" 0)
            (TangentResult.mk false (mkRat 9 10) "" "") 100).2
          (TangentResult.mk true (mkRat 9 10) "" "") 110).2
        (TangentResult.mk false (mkRat 9 10) "" "") 120).1 = false) :=
  tangent_two_strikes_one_intervention (freshMeeting "b" 0)
    (TangentResult.mk false (mkRat 9 10) "" "") (TangentResult.mk false (mkRat 9 10) "" "")
    (TangentResult.mk true (mkRat 9 10) "" "") (TangentResult.mk false (mkRat 9 10) "" "")
    100 110 120 rfl (by norm_num [freshMeeting])
    (by norm_num) (by norm_num)
    ⟨rfl, by norm_num [defaultTangentConfig]⟩
    ⟨rfl, by norm_num [defaultTangentConfig]⟩
    ⟨rfl, by norm_num [defaultTangentConfig]⟩
    rfl (by norm_num [defaultTangentConfig])

/-- Reachability of a meeting state through the strike machine: a fresh
state, a strike transition at a time not before the previous one, or any
state transformation that leaves the strike-count and cooldown fields
unchanged (the other store operations never touch them). -/
inductive TangentReach (cfg : TangentConfig) : MeetingState → ℚ → Prop
  | init (bot_id : String) (cap : ℕ) (t : ℚ) : TangentReach cfg (freshMeeting bot_id cap) t
  | step (st : MeetingState) (t : ℚ) (r : TangentResult) (t' : ℚ)
      (h : TangentReach cfg st t) (hle : t ≤ t') :
      TangentReach cfg (registerStrike cfg st r t').2 t'
  | frame (st : MeetingState) (t : ℚ) (st' : MeetingState)
      (h : TangentReach cfg st t)
      (h1 : st'.strike_count = st.strike_count)
      (h2 : st'.cooldown_until_ts = st.cooldown_until_ts) :
      TangentReach cfg st' t

/-- Strike-machine invariant: in a reachable state a nonzero strike count
implies the cooldown expiry lies at or before the last transition time. -/
theorem tangentReach_invariant {cfg : TangentConfig} {st : MeetingState} {t : ℚ}
    (h : TangentReach cfg st t) : st.strike_count ≠ 0 → st.cooldown_until_ts ≤ t := by
  induction h with
  | init bot_id cap t =>
    intro hc
    simp [freshMeeting] at hc
  | step st t r t' h hle ih =>
    intro hc
    by_cases h1 : t' < st.cooldown_until_ts
    · rw [registerStrike_cooldown_eq cfg st r t' h1] at hc ⊢
      exact le_trans (ih hc) hle
    · by_cases h2 : r.on_topic ∨ r.confidence < cfg.conf_threshold
      · rw [registerStrike_reset_eq cfg st r t' (not_lt.mp h1) h2] at hc
        simp at hc
      · unfold registerStrike at hc ⊢
        rw [if_neg h1, if_neg h2] at hc ⊢
        by_cases h3 : st.strike_expires_ts < t'
        · simp only [if_pos h3] at hc ⊢
          by_cases h4 : (2:ℕ) ≤ 0 + 1
          · omega
          · simp only [if_neg h4] at hc ⊢
            exact not_lt.mp h1
        · simp only [if_neg h3] at hc ⊢
          by_cases h4 : (2:ℕ) ≤ st.strike_count + 1
          · simp only [if_pos h4] at hc
            simp at hc
          · simp only [if_neg h4] at hc ⊢
            exact not_lt.mp h1
  | frame st t st' h h1 h2 ih =>
    intro hc
    rw [h2]
    exact ih (h1 ▸ hc)

/-- Claim C4.  During an active cooldown the strike transition returns
no-intervene and leaves the state unchanged, for any classification result;
consequently every reachable state observed inside an active cooldown has
strike count 0, and any sequence of classifications processed while the
cooldown is active produces no interventions and leaves the state (hence the
strike count) unchanged throughout. -/
theorem tangent_cooldown_suppresses (st : MeetingState) (r : TangentResult) (now : ℚ)
    (t : ℚ) (hre : TangentReach defaultTangentConfig st t) :
    (now < st.cooldown_until_ts → registerStrike defaultTangentConfig st r now = (false, st)) ∧
    (t ≤ now → now < st.cooldown_until_ts →
      st.strike_count = 0 ∧
      ∀ L : List (ℚ × TangentResult),
        (∀ p ∈ L, now ≤ p.1 ∧ p.1 < st.cooldown_until_ts) →
        runStrikes defaultTangentConfig st L = (List.replicate L.length false, st)) := by
  refine ⟨fun h => registerStrike_cooldown_eq _ st r now h, fun hle hcd => ?_⟩
  have hzero : st.strike_count = 0 := by
    by_contra hc
    exact absurd (lt_of_le_of_lt hle hcd) (not_lt.mpr (tangentReach_invariant hre hc))
  refine ⟨hzero, ?_⟩
  intro L hall
  induction L with
  | nil => rfl
  | cons p rest ih =>
    obtain ⟨t0, r0⟩ := p
    have hp := hall (t0, r0) (List.mem_cons_self _ _)
    have hrest := ih (fun q hq => hall q (List.mem_cons_of_mem _ hq))
    simp only [runStrikes, registerStrike_cooldown_eq _ st r0 t0 hp.2, hrest,
      List.length_cons, List.replicate_succ]

/-- Claim C4 witness: a reachable state inside cooldown (built by an actual
intervention at times 100 and 110) suppresses a burst of three confident
off-topic classifications at times 120, 130, 140. -/
theorem tangent_cooldown_suppresses_witness :
    ((120:ℚ) < (registerStrike defaultTangentConfig
        (registerStrike defaultTangentConfig (freshMeeting "c" 0)
          (TangentResult.mk false 1 "" "") 100).2
        (TangentResult.mk false 1 "" "") 110).2.cooldown_until_ts →
      registerStrike defaultTangentConfig
        (registerStrike defaultTangentConfig
          (registerStrike defaultTangentConfig (freshMeeting "c" 0)
            (TangentResult.mk false 1 "" "") 100).2
          (TangentResult.mk false 1 "" "") 110).2
        (TangentResult.mk false 1 "" "") 120
      = (false, (registerStrike defaultTangentConfig
          (registerStrike defaultTangentConfig (freshMeeting "c" 0)
            (TangentResult.mk false 1 "" "") 100).2
          (TangentResult.mk false 1 "" "") 110).2)) ∧
    ((110:ℚ) ≤ 120 → (120:ℚ) < (registerStrike defaultTangentConfig
        (registerStrike defaultTangentConfig (freshMeeting "c" 0)
          (TangentResult.mk false 1 "" "") 100).2
        (TangentResult.mk false 1 "" "") 110).2.cooldown_until_ts →
      (registerStrike defaultTangentConfig
        (registerStrike defaultTangentConfig (freshMeeting "c" 0)
          (TangentResult.mk false 1 "" "") 100).2
        (TangentResult.mk false 1 "" "") 110).2.strike_count = 0 ∧
      ∀ L : List (ℚ × TangentResult),
        (∀ p ∈ L, (120:ℚ) ≤ p.1 ∧ p.1 < (registerStrike defaultTangentConfig
            (registerStrike defaultTangentConfig (freshMeeting "c" 0)
              (TangentResult.mk false 1 "" "") 100).2
            (TangentResult.mk false 1 "" "") 110).2.cooldown_until_ts) →
        runStrikes defaultTangentConfig
            (registerStrike defaultTangentConfig
              (registerStrike defaultTangentConfig (freshMeeting "c" 0)
                (TangentResult.mk false 1 "" "") 100).2
              (TangentResult.mk false 1 "" "") 110).2 L
          = (List.replicate L.length false,
              (registerStrike defaultTangentConfig
                (registerStrike defaultTangentConfig (freshMeeting "c" 0)
                  (TangentResult.mk false 1 "" "") 100).2
                (TangentResult.mk false 1 "" "") 110).2)) :=
  tangent_cooldown_suppresses _ (TangentResult.mk false 1 "" "") 120 110
    (TangentReach.step _ 100 _ 110
      (TangentReach.step _ 100 _ 100 (TangentReach.init "c" 0 100) le_rfl)
      (by norm_num))

/-! ### difflib.SequenceMatcher (CPython, isjunk=None, autojunk=True)

The similarity functions of topic_tracker.py and qa_engine.py call
`SequenceMatcher(None, a, b).ratio()`.  The model below follows CPython's
difflib: `__chain_b` (with the autojunk purge of popular characters),
`find_longest_match` (the j2len dynamic scan plus the two non-junk extension
loops; the junk extension loops are dead because `isjunk is None` leaves
`bjunk` empty), `get_matching_blocks` (modelled as the total match count: the
queue order and the final merge of adjacent blocks do not change the sum of
block sizes), and `ratio`.  The recursion of `get_matching_blocks` is bounded
by the window perimeter, so it is expressed with an explicit fuel that
provably suffices. -/

/-- Ascending positions of the character `c` in `b` (the `b2j` entry built by
`__chain_b` before the autojunk purge). -/
def charPositions (b : List Char) (c : Char) : List ℕ :=
  (List.range b.length).filter (fun j => b.getD j ' ' = c)

/-- Autojunk of `__chain_b`: when `len(b) >= 200`, characters occurring more
than `len(b) // 100 + 1` times are treated as popular and purged from `b2j`. -/
def isPopular (b : List Char) (c : Char) : Bool :=
  decide (200 ≤ b.length) && decide (b.length / 100 + 1 < (charPositions b c).length)

/-- The purged `b2j` mapping of `__chain_b`. -/
def b2j (b : List Char) (c : Char) : List ℕ :=
  if isPopular b c then [] else charPositions b c

/-- Current best block of `find_longest_match`: `besti`, `bestj`, `bestsize`. -/
structure SMBest where
  bi : ℕ
  bj : ℕ
  bs : ℕ
deriving DecidableEq, Repr

/-- Inner loop of `find_longest_match` over the candidate `j` list for a
fixed `i`: run lengths are read from the previous row `oldJ` and written to
the new row, and the best block is updated on strictly longer runs.  The
python `continue`/`break` on `j < blo` / `j >= bhi` equals the caller's
blo/bhi filter because the position lists are ascending. -/
def smScanJs (i : ℕ) (oldJ : List (ℕ × ℕ)) :
    List ℕ → List (ℕ × ℕ) → SMBest → List (ℕ × ℕ) × SMBest
  | [], newJ, best => (newJ, best)
  | j :: js, newJ, best =>
    let k := (if j = 0 then 0 else ((oldJ.lookup (j - 1)).getD 0)) + 1
    let best' := if best.bs < k then SMBest.mk (i + 1 - k) (j + 1 - k) k else best
    smScanJs i oldJ js ((j, k) :: newJ) best'

/-- Outer loop of `find_longest_match` over the consecutive `i` range. -/
def smScanIs (a b : List Char) (blo bhi : ℕ) :
    List ℕ → List (ℕ × ℕ) → SMBest → SMBest
  | [], _, best => best
  | i :: rest, j2len, best =>
    let js := (b2j b (a.getD i ' ')).filter (fun j => decide (blo ≤ j) && decide (j < bhi))
    let p := smScanJs i j2len js [] best
    smScanIs a b blo bhi rest p.1 p.2

/-- Backward extension loop of `find_longest_match` (`bjunk` is empty for
`isjunk=None`, so the junk loops never fire and the non-junk condition is
vacuous).  The loop decrements `besti`, so `besti` itself is enough fuel. -/
def smExtendLow (a b : List Char) (alo blo : ℕ) : SMBest → ℕ → SMBest
  | best, 0 => best
  | best, fuel + 1 =>
    if alo < best.bi ∧ blo < best.bj ∧ a.getD (best.bi - 1) ' ' = b.getD (best.bj - 1) ' '
    then smExtendLow a b alo blo (SMBest.mk (best.bi - 1) (best.bj - 1) (best.bs + 1)) fuel
    else best

/-- Forward extension loop of `find_longest_match`; `ahi` bounds the number
of iterations. -/
def smExtendHigh (a b : List Char) (ahi bhi : ℕ) : SMBest → ℕ → SMBest
  | best, 0 => best
  | best, fuel + 1 =>
    if best.bi + best.bs < ahi ∧ best.bj + best.bs < bhi ∧
        a.getD (best.bi + best.bs) ' ' = b.getD (best.bj + best.bs) ' '
    then smExtendHigh a b ahi bhi (SMBest.mk best.bi best.bj (best.bs + 1)) fuel
    else best

/-- Model of `find_longest_match(alo, ahi, blo, bhi)`. -/
def findLongestMatch (a b : List Char) (alo ahi blo bhi : ℕ) : SMBest :=
  let best0 := smScanIs a b blo bhi (List.range' alo (ahi - alo)) [] (SMBest.mk alo blo 0)
  let best1 := smExtendLow a b alo blo best0 best0.bi
  smExtendHigh a b ahi bhi best1 ahi

/-- Total size of the matching blocks of `get_matching_blocks`, as the
divide-and-conquer recursion around the longest match; processing order and
adjacent-block merging do not affect the total.  The window perimeter shrinks
at every recursive call, so the explicit fuel `la + lb + 1` used below always
suffices. -/
def smMatchSum (a b : List Char) : ℕ → ℕ → ℕ → ℕ → ℕ → ℕ
  | 0, _, _, _, _ => 0
  | fuel + 1, alo, ahi, blo, bhi =>
    let m := findLongestMatch a b alo ahi blo bhi
    if m.bs = 0 then 0
    else
      m.bs
      + (if alo < m.bi ∧ blo < m.bj then smMatchSum a b fuel alo m.bi blo m.bj else 0)
      + (if m.bi + m.bs < ahi ∧ m.bj + m.bs < bhi
          then smMatchSum a b fuel (m.bi + m.bs) ahi (m.bj + m.bs) bhi else 0)

/-- Total number of matched characters of `SequenceMatcher(None, a, b)`. -/
def seqMatches (a b : List Char) : ℕ :=
  smMatchSum a b (a.length + b.length + 1) 0 a.length 0 b.length

/-- Model of `SequenceMatcher(None, a, b).ratio()`:
`2.0 * matches / (len(a) + len(b))`, and 1.0 when both are empty. -/
def seqRatioQ (a b : List Char) : ℚ :=
  if a.length + b.length = 0 then 1
  else mkRat (2 * seqMatches a b) (a.length + b.length)

/-! ### topic_tracker.py and qa_engine.py: similarity functions -/

/-- Stopword list shared verbatim by topic_tracker.py (`_STOPWORDS`,
topic_tracker.py:12-61) and qa_engine.py (`_STOPWORDS`, qa_engine.py:13-62). -/
def topicStopwords : List String :=
  ["the", "a", "an", "and", "or", "but", "so", "to", "of", "in", "on", "for",
   "with", "at", "by", "is", "are", "was", "were", "be", "been", "being",
   "it", "this", "that", "we", "you", "i", "they", "he", "she", "them",
   "us", "our", "your", "my", "me", "as", "from", "into", "about", "can",
   "could", "should", "would", "will", "just", "like"]

/-- Model of `_tokenize` (topic_tracker.py:64-74, identical in
qa_engine.py:65-75): the set of normalized tokens. -/
def simTokenize (s : String) : Finset String :=
  ((alnumRuns s).filter
    (fun t => !topicStopwords.contains t && decide (2 < t.length))).toFinset

/-- Jaccard part of both similarity functions:
`len(ta & tb) / max(1, len(ta | tb))`, and 0.0 when both sets are empty. -/
def jaccardQ (ta tb : Finset String) : ℚ :=
  if ta ≠ ∅ ∨ tb ≠ ∅ then mkRat ((ta ∩ tb).card) (max 1 (ta ∪ tb).card) else 0

/-- Lowercasing of a whole string (`str.lower()`, ASCII model). -/
def lowerStr (s : String) : String :=
  (s.toList.map Char.toLower).asString

/-- Model of `topic_similarity` (topic_tracker.py:77-97):
`0.6 * jaccard + 0.4 * SequenceMatcher(None, a.lower(), b.lower()).ratio()`
after the empty-string guards on the stripped inputs. -/
def topicSimilarity (a b : String) : ℚ :=
  let a := pyStrip a
  let b := pyStrip b
  if a = "" ∧ b = "" then 1
  else if a = "" ∨ b = "" then 0
  else
    mkRat 6 10 * jaccardQ (simTokenize a) (simTokenize b)
      + mkRat 4 10 * seqRatioQ (a.toList.map Char.toLower) (b.toList.map Char.toLower)

/-- Model of `_similarity` (qa_engine.py:78-92): inputs are stripped and
lowercased first; an empty side gives 0.0; otherwise
`0.65 * jaccard + 0.35 * SequenceMatcher(None, a, b).ratio()`. -/
def qaSimilarity (a b : String) : ℚ :=
  let a := lowerStr (pyStrip a)
  let b := lowerStr (pyStrip b)
  if a = "" ∨ b = "" then 0
  else
    mkRat 65 100 * jaccardQ (simTokenize a) (simTokenize b)
      + mkRat 35 100 * seqRatioQ a.toList b.toList

/-- Model of `TopicTracker.is_changed_enough` (topic_tracker.py:148-156) at
similarity threshold `simThreshold` (default 0.72). -/
def isChangedEnough (simThreshold : ℚ) (previous next : String) : Bool :=
  let prev := pyStrip previous
  let nw := pyStrip next
  if nw = "" then false
  else if prev = "" then true
  else decide (topicSimilarity prev nw < simThreshold)

/-- Model of the topic-change decision of the realtime webhook
(main.py:551-553): the tracker's `is_changed_enough` is consulted only when
the inferred confidence reaches `TOPIC_MIN_CONFIDENCE` (default 0.5). -/
def topicChangeDecision (minConfidence simThreshold conf : ℚ)
    (previous next : String) : Bool :=
  decide (minConfidence ≤ conf) && isChangedEnough simThreshold previous next

/-! ### stripping lemmas -/

theorem pyStrip_eq (s : String) :
    pyStrip s = (List.rdropWhile isPySpace (s.toList.dropWhile isPySpace)).asString := by
  unfold pyStrip List.rdropWhile
  rfl

/-- Dropping a leading whitespace run and a trailing whitespace run commute. -/
theorem dropWhile_rdropWhile_comm (p : Char → Bool) (m : List Char) :
    List.dropWhile p (List.rdropWhile p m) = List.rdropWhile p (List.dropWhile p m) := by
  induction m using List.reverseRecOn with
  | nil => simp
  | append_singleton l x ih =>
    by_cases hx : p x
    · rw [List.rdropWhile_concat_pos p l x hx, ih, List.dropWhile_append]
      by_cases hl : List.dropWhile p l = []
      · rw [hl]
        simp only [List.isEmpty_nil, if_pos]
        have hx1 : List.dropWhile p [x] = [] := by
          simp [List.dropWhile, hx]
        rw [hx1]
      · rw [if_neg (by simp [hl])]
        rw [List.rdropWhile_concat_pos p _ x hx]
    · rw [List.rdropWhile_concat_neg p l x hx, List.dropWhile_append]
      by_cases hl : List.dropWhile p l = []
      · rw [hl]
        simp only [List.isEmpty_nil, if_pos]
        have hx1 : List.dropWhile p [x] = [x] := by
          simp [List.dropWhile, hx]
        rw [hx1, List.rdropWhile_singleton, if_neg hx]
      · rw [if_neg (by simp [hl])]
        rw [List.rdropWhile_concat_neg p _ x hx]

theorem pyStrip_idem (s : String) : pyStrip (pyStrip s) = pyStrip s := by
  rw [pyStrip_eq, pyStrip_eq, List.toList_asString]
  rw [dropWhile_rdropWhile_comm, List.dropWhile_idempotent, List.rdropWhile_idempotent]

theorem topicSimilarity_strip (a b : String) :
    topicSimilarity (pyStrip a) (pyStrip b) = topicSimilarity a b := by
  unfold topicSimilarity
  rw [pyStrip_idem, pyStrip_idem]

/-! ### Claim C9: topic-change decision -/

set_option maxRecDepth 100000 in
/-- Claim C9.  The topic-change decision (confidence gate of the realtime
webhook followed by `is_changed_enough`) returns true only if the inferred
confidence is at least 0.5 and the blended label similarity is below 0.72;
concretely it rejects "Budget Planning" → "Budget Planning Q&A" and accepts
"Budget Planning" → "Lunch Orders" at confidence ≥ 0.5. -/
theorem topic_change_gate (conf : ℚ) (previous next : String) :
    (topicChangeDecision (mkRat 5 10) (mkRat 72 100) conf previous next = true →
      mkRat 5 10 ≤ conf ∧ topicSimilarity previous next < mkRat 72 100) ∧
    isChangedEnough (mkRat 72 100) "Budget Planning" "Budget Planning Q&A" = false ∧
    (mkRat 5 10 ≤ conf →
      topicChangeDecision (mkRat 5 10) (mkRat 72 100) conf "Budget Planning" "Lunch Orders"
        = true) := by
  refine ⟨?_, by decide, ?_⟩
  · intro h
    unfold topicChangeDecision at h
    rw [Bool.and_eq_true, decide_eq_true_iff] at h
    refine ⟨h.1, ?_⟩
    have h2 := h.2
    unfold isChangedEnough at h2
    rw [← topicSimilarity_strip]
    by_cases hnw : pyStrip next = ""
    · rw [if_pos hnw] at h2
      exact absurd h2 (by simp)
    · rw [if_neg hnw] at h2
      by_cases hprev : pyStrip previous = ""
      · rw [hprev]
        unfold topicSimilarity
        rw [show pyStrip "" = "" from rfl, pyStrip_idem]
        rw [if_neg (by simp [hnw]), if_pos (Or.inl rfl)]
        rw [Rat.mkRat_eq_div]
        norm_num
      · rw [if_neg hprev] at h2
        rw [decide_eq_true_iff] at h2
        exact h2
  · intro hc
    unfold topicChangeDecision
    rw [Bool.and_eq_true, decide_eq_true_iff]
    exact ⟨hc, by decide⟩

/-- Claim C9 witness: the gate accepts "Budget Planning" → "Lunch Orders" at
confidence 1, and that acceptance forces similarity < 0.72 and conf ≥ 0.5;
the near-duplicate label is rejected. -/
theorem topic_change_gate_witness :
    (mkRat 5 10 ≤ (1:ℚ) ∧
      topicSimilarity "Budget Planning" "Lunch Orders" < mkRat 72 100) ∧
    isChangedEnough (mkRat 72 100) "Budget Planning" "Budget Planning Q&A" = false ∧
    topicChangeDecision (mkRat 5 10) (mkRat 72 100) 1 "Budget Planning" "Lunch Orders"
      = true := by
  have h := topic_change_gate 1 "Budget Planning" "Lunch Orders"
  have h3 := h.2.2 (by rw [Rat.mkRat_eq_div]; norm_num)
  exact ⟨h.1 h3, h.2.1, h3⟩

/-! ### Claim C6: counterexample -/

set_option maxRecDepth 100000 in
/-- Claim C6 counterexample.  Reflexivity fails on non-empty strings with no
indexable token: both similarity functions give "the" vs "the" a value
strictly below 1 (the token sets are empty, so the Jaccard part is 0).
Moreover `topic_similarity(" ", "")` is 1 (a whitespace-only first argument
strips to empty), not 0 as claimed for non-empty x, and the retrieval
engine's `_similarity("", "")` is 0, not 1. -/
theorem similarity_properties_counterexample :
    ("the" : String) ≠ "" ∧
    topicSimilarity "the" "the" = mkRat 2 5 ∧
    qaSimilarity "the" "the" = mkRat 7 20 ∧
    (" " : String) ≠ "" ∧
    topicSimilarity " " "" = 1 ∧
    qaSimilarity "" "" = 0 := by
  refine ⟨by decide, by decide, by decide, by decide, by decide, by decide⟩

/-! ### SequenceMatcher: window bounds

The returned best block always lies inside the requested window, the sum of
matching-block sizes is bounded by both window sizes, and therefore
`ratio` lies in [0,1]. -/

/-- A `j2len` row built while scanning rows up to (excluding) `i`: every run
length is bounded by the row index and by its key (all relative to the
window origin, written additively to avoid truncated subtraction). -/
def smJBound (alo blo i : ℕ) (m : List (ℕ × ℕ)) : Prop :=
  ∀ p ∈ m, p.2 + alo ≤ i ∧ p.2 + blo ≤ p.1 + 1

/-- The best block lies inside the window `[alo, ahi) × [blo, bhi)`. -/
def smBestInWindow (alo ahi blo bhi : ℕ) (b : SMBest) : Prop :=
  alo ≤ b.bi ∧ b.bi + b.bs ≤ ahi ∧ blo ≤ b.bj ∧ b.bj + b.bs ≤ bhi

theorem lookup_getD_mem_or_zero (m : List (ℕ × ℕ)) (x : ℕ) :
    (m.lookup x).getD 0 = 0 ∨ (x, (m.lookup x).getD 0) ∈ m := by
  induction m with
  | nil => exact Or.inl rfl
  | cons hd tl ih =>
    obtain ⟨k, v⟩ := hd
    by_cases h : x = k
    · subst h
      right
      simp [List.lookup]
    · have : ((k, v) :: tl).lookup x = tl.lookup x := by
        simp [List.lookup, beq_false_of_ne h]
      rw [this]
      rcases ih with h0 | hmem
      · exact Or.inl h0
      · exact Or.inr (List.mem_cons_of_mem _ hmem)

theorem smScanJs_bounds (i : ℕ) (oldJ : List (ℕ × ℕ)) (js : List ℕ)
    (newJ : List (ℕ × ℕ)) (best : SMBest) (alo ahi blo bhi : ℕ)
    (hia : alo ≤ i) (hib : i < ahi)
    (hold : smJBound alo blo i oldJ)
    (hjs : ∀ j ∈ js, blo ≤ j ∧ j < bhi)
    (hnew : smJBound alo blo (i + 1) newJ)
    (hbest : smBestInWindow alo ahi blo bhi best) :
    smJBound alo blo (i + 1) (smScanJs i oldJ js newJ best).1 ∧
    smBestInWindow alo ahi blo bhi (smScanJs i oldJ js newJ best).2 := by
  induction js generalizing newJ best with
  | nil => exact ⟨hnew, hbest⟩
  | cons j rest ih =>
    have hj := hjs j (List.mem_cons_self _ _)
    have hkj : ((if j = 0 then 0 else ((oldJ.lookup (j - 1)).getD 0)) + 1) + alo ≤ i + 1 ∧
        ((if j = 0 then 0 else ((oldJ.lookup (j - 1)).getD 0)) + 1) + blo ≤ j + 1 := by
      by_cases hz : j = 0
      · rw [if_pos hz]
        omega
      · rw [if_neg hz]
        rcases lookup_getD_mem_or_zero oldJ (j - 1) with h0 | hmem
        · rw [h0]
          omega
        · have := hold _ hmem
          simp only at this
          omega
    simp only [smScanJs]
    apply ih
    · exact fun j' hj' => hjs j' (List.mem_cons_of_mem _ hj')
    · intro p hp
      rcases List.mem_cons.mp hp with hp | hp
      · rw [hp]
        exact hkj
      · exact hnew p hp
    · by_cases hu : best.bs < (if j = 0 then 0 else ((oldJ.lookup (j - 1)).getD 0)) + 1
      · rw [if_pos hu]
        obtain ⟨hk1, hk2⟩ := hkj
        obtain ⟨w1, w2, w3, w4⟩ := hbest
        refine ⟨?_, ?_, ?_, ?_⟩ <;> dsimp only <;> omega
      · rw [if_neg hu]
        exact hbest

theorem smScanIs_bounds (a b : List Char) (alo ahi blo bhi : ℕ) (len : ℕ) :
    ∀ start j2len best, alo ≤ start → start + len ≤ ahi →
    smJBound alo blo start j2len →
    smBestInWindow alo ahi blo bhi best →
    smBestInWindow alo ahi blo bhi
      (smScanIs a b blo bhi (List.range' start len) j2len best) := by
  induction len with
  | zero =>
    intro start j2len best _ _ _ hbest
    exact hbest
  | succ len ih =>
    intro start j2len best hstart hrange hold hbest
    rw [List.range'_succ]
    simp only [smScanIs]
    have hjs : ∀ j ∈ (b2j b (a.getD start ' ')).filter
        (fun j => decide (blo ≤ j) && decide (j < bhi)), blo ≤ j ∧ j < bhi := by
      intro j hjmem
      have := (List.mem_filter.mp hjmem).2
      simp at this
      exact this
    have h := smScanJs_bounds start j2len _ [] best alo ahi blo bhi hstart (by omega)
      hold hjs (by intro p hp; simp at hp) hbest
    exact ih (start + 1) _ _ (by omega) (by omega)
      (fun p hp => (h.1 p hp)) h.2

theorem findLongestMatch_bounds (a b : List Char) (alo ahi blo bhi : ℕ)
    (ha : alo ≤ ahi) (hb : blo ≤ bhi) :
    smBestInWindow alo ahi blo bhi (findLongestMatch a b alo ahi blo bhi) := by
  unfold findLongestMatch
  have h0 : smBestInWindow alo ahi blo bhi (SMBest.mk alo blo 0) :=
    ⟨le_rfl, by simpa, le_rfl, by simpa⟩
  have h1 := smScanIs_bounds a b alo ahi blo bhi (ahi - alo) alo []
    (SMBest.mk alo blo 0) le_rfl (by omega) (by intro p hp; simp at hp) h0
  set best0 := smScanIs a b blo bhi (List.range' alo (ahi - alo)) [] (SMBest.mk alo blo 0)
    with hbest0
  clear_value best0
  have hlow : ∀ fuel best, smBestInWindow alo ahi blo bhi best →
      smBestInWindow alo ahi blo bhi (smExtendLow a b alo blo best fuel) := by
    intro fuel
    induction fuel with
    | zero => exact fun best h => h
    | succ fuel ihf =>
      intro best h
      simp only [smExtendLow]
      by_cases hc : alo < best.bi ∧ blo < best.bj ∧
          a.getD (best.bi - 1) ' ' = b.getD (best.bj - 1) ' '
      · rw [if_pos hc]
        apply ihf
        obtain ⟨w1, w2, w3, w4⟩ := h
        obtain ⟨hc1, hc2, hc3⟩ := hc
        refine ⟨?_, ?_, ?_, ?_⟩ <;> dsimp only <;> omega
      · rw [if_neg hc]
        exact h
  have hhigh : ∀ fuel best, smBestInWindow alo ahi blo bhi best →
      smBestInWindow alo ahi blo bhi (smExtendHigh a b ahi bhi best fuel) := by
    intro fuel
    induction fuel with
    | zero => exact fun best h => h
    | succ fuel ihf =>
      intro best h
      simp only [smExtendHigh]
      by_cases hc : best.bi + best.bs < ahi ∧ best.bj + best.bs < bhi ∧
          a.getD (best.bi + best.bs) ' ' = b.getD (best.bj + best.bs) ' '
      · rw [if_pos hc]
        apply ihf
        obtain ⟨w1, w2, w3, w4⟩ := h
        obtain ⟨hc1, hc2, hc3⟩ := hc
        refine ⟨?_, ?_, ?_, ?_⟩ <;> dsimp only <;> omega
      · rw [if_neg hc]
        exact h
  exact hhigh _ _ (hlow _ _ h1)

theorem smMatchSum_le (a b : List Char) (fuel : ℕ) :
    ∀ alo ahi blo bhi, alo ≤ ahi → blo ≤ bhi →
    smMatchSum a b fuel alo ahi blo bhi + alo ≤ ahi ∧
    smMatchSum a b fuel alo ahi blo bhi + blo ≤ bhi := by
  induction fuel with
  | zero =>
    intro alo ahi blo bhi ha hb
    simp only [smMatchSum]
    omega
  | succ fuel ih =>
    intro alo ahi blo bhi ha hb
    simp only [smMatchSum]
    obtain ⟨w1, w2, w3, w4⟩ := findLongestMatch_bounds a b alo ahi blo bhi ha hb
    set m := findLongestMatch a b alo ahi blo bhi
    by_cases hz : m.bs = 0
    · rw [if_pos hz]
      omega
    · rw [if_neg hz]
      by_cases hleft : alo < m.bi ∧ blo < m.bj
      · have hL := ih alo m.bi blo m.bj (by omega) (by omega)
        by_cases hright : m.bi + m.bs < ahi ∧ m.bj + m.bs < bhi
        · have hR := ih (m.bi + m.bs) ahi (m.bj + m.bs) bhi (by omega) (by omega)
          rw [if_pos hleft, if_pos hright]
          omega
        · rw [if_pos hleft, if_neg hright]
          omega
      · by_cases hright : m.bi + m.bs < ahi ∧ m.bj + m.bs < bhi
        · have hR := ih (m.bi + m.bs) ahi (m.bj + m.bs) bhi (by omega) (by omega)
          rw [if_neg hleft, if_pos hright]
          omega
        · rw [if_neg hleft, if_neg hright]
          omega

theorem seqMatches_le (a b : List Char) :
    seqMatches a b ≤ a.length ∧ seqMatches a b ≤ b.length := by
  have := smMatchSum_le a b (a.length + b.length + 1) 0 a.length 0 b.length
    (by omega) (by omega)
  unfold seqMatches
  omega

theorem seqRatioQ_bounds (a b : List Char) :
    0 ≤ seqRatioQ a b ∧ seqRatioQ a b ≤ 1 := by
  unfold seqRatioQ
  by_cases hz : a.length + b.length = 0
  · rw [if_pos hz]
    norm_num
  · rw [if_neg hz]
    have hm := seqMatches_le a b
    rw [Rat.mkRat_eq_div]
    constructor
    · positivity
    · rw [div_le_one (by positivity)]
      push_cast
      have : 2 * seqMatches a b ≤ a.length + b.length := by omega
      exact_mod_cast this

/-! ### SequenceMatcher: reflexivity on identical inputs

On `(s, s)` the scan's best block is always diagonal (`besti = bestj`): any
off-diagonal repeat of a substring is dominated by the diagonal run over the
same window, which the scan encounters no later.  The extension loops then
grow a diagonal block to the whole string, so `ratio(s, s) = 1` — including
under the autojunk purge. -/

/-- Position `p` of `s` survives into `b2j` for its own character. -/
def diagOK (s : List Char) (p : ℕ) : Bool :=
  !(isPopular s (s.getD p ' ')) && decide (p < s.length)

/-- Length of the maximal consecutive run of surviving positions of `s`
ending at `p` — the diagonal run of the scan on `(s, s)`. -/
def diagRun (s : List Char) : ℕ → ℕ
  | 0 => if diagOK s 0 then 1 else 0
  | p + 1 => if diagOK s (p + 1) then diagRun s p + 1 else 0

theorem mem_charPositions {s : List Char} {c : Char} {j : ℕ} :
    j ∈ charPositions s c ↔ j < s.length ∧ s.getD j ' ' = c := by
  unfold charPositions
  rw [List.mem_filter, List.mem_range]
  simp

theorem mem_b2j {s : List Char} {c : Char} {j : ℕ} (h : j ∈ b2j s c) :
    j < s.length ∧ s.getD j ' ' = c ∧ isPopular s c = false := by
  unfold b2j at h
  by_cases hp : isPopular s c
  · rw [if_pos hp] at h
    simp at h
  · rw [if_neg hp] at h
    obtain ⟨h1, h2⟩ := mem_charPositions.mp h
    exact ⟨h1, h2, by simpa using hp⟩

theorem self_mem_b2j {s : List Char} {i : ℕ} (hi : i < s.length)
    (hp : isPopular s (s.getD i ' ') = false) : i ∈ b2j s (s.getD i ' ') := by
  unfold b2j
  rw [if_neg (by rw [hp]; simp)]
  exact mem_charPositions.mpr ⟨hi, rfl⟩

theorem diagOK_of_mem_b2j {s : List Char} {c : Char} {j : ℕ} (h : j ∈ b2j s c) :
    diagOK s j = true := by
  obtain ⟨h1, h2, h3⟩ := mem_b2j h
  unfold diagOK
  rw [h2]
  simp [h3, h1]

theorem diagOK_head_of_mem {s : List Char} {i j : ℕ} (hilen : i < s.length)
    (h : j ∈ b2j s (s.getD i ' ')) : diagOK s i = true := by
  obtain ⟨h1, h2, h3⟩ := mem_b2j h
  unfold diagOK
  rw [h3]
  simp [hilen]

theorem diagRun_eq_of_ok {s : List Char} {j : ℕ} (h : diagOK s j = true) :
    diagRun s j = (if j = 0 then 0 else diagRun s (j - 1)) + 1 := by
  cases j with
  | zero => simp [diagRun, h]
  | succ m => simp [diagRun, h]

theorem diagRun_eq_zero {s : List Char} {j : ℕ} (h : diagOK s j = false) :
    diagRun s j = 0 := by
  cases j with
  | zero => simp [diagRun, h]
  | succ m => simp [diagRun, h]

theorem b2j_pairwise (s : List Char) (c : Char) : (b2j s c).Pairwise (· < ·) := by
  unfold b2j
  by_cases hp : isPopular s c
  · simp [hp]
  · rw [if_neg hp]
    exact (List.pairwise_lt_range _).filter _

/-- The `j2len` row handed to the scan of row `i` on `(s, s)`: empty at the
start, values bounded by the diagonal runs at their key and at the previous
row, and exact at the previous diagonal position. -/
def smJDiag (s : List Char) (i : ℕ) (m : List (ℕ × ℕ)) : Prop :=
  (i = 0 → m = []) ∧
  (∀ p ∈ m, p.2 ≤ diagRun s p.1) ∧
  (∀ p ∈ m, ∀ i', i = i' + 1 → p.2 ≤ diagRun s i') ∧
  ((m.lookup (i - 1)).getD 0 = if i = 0 then 0 else diagRun s (i - 1))

/-- Inner-loop invariant on `(s, s)`: the best block stays diagonal, it
dominates every diagonal run seen so far, and the new row records values
bounded by (and at the diagonal key, equal to) the diagonal runs. -/
theorem smScanJs_diag (s : List Char) (i : ℕ) (oldJ : List (ℕ × ℕ)) (js : List ℕ) :
    ∀ (newJ : List (ℕ × ℕ)) (best : SMBest),
    i < s.length →
    smJDiag s i oldJ →
    (∀ j ∈ js, j ∈ b2j s (s.getD i ' ')) →
    js.Pairwise (· < ·) →
    best.bi = best.bj →
    (∀ p, p < i → diagRun s p ≤ best.bs) →
    (diagRun s i ≤ best.bs ∨ i ∈ js) →
    (∀ p ∈ newJ, p.2 ≤ diagRun s p.1 ∧ p.2 ≤ diagRun s i ∧ (p.1 = i → p.2 = diagRun s i)) →
    ((smScanJs i oldJ js newJ best).2.bi = (smScanJs i oldJ js newJ best).2.bj) ∧
    (∀ p, p < i → diagRun s p ≤ (smScanJs i oldJ js newJ best).2.bs) ∧
    (diagRun s i ≤ (smScanJs i oldJ js newJ best).2.bs) ∧
    (∀ p ∈ (smScanJs i oldJ js newJ best).1,
      p.2 ≤ diagRun s p.1 ∧ p.2 ≤ diagRun s i ∧ (p.1 = i → p.2 = diagRun s i)) ∧
    (i ∈ js → ((smScanJs i oldJ js newJ best).1.lookup i).getD 0 = diagRun s i) ∧
    (i ∉ js → (smScanJs i oldJ js newJ best).1.lookup i = newJ.lookup i) := by
  induction js with
  | nil =>
    intro newJ best hi hJ hjs hpw hdiag hdom hseen hacc
    refine ⟨hdiag, hdom, ?_, hacc, ?_, ?_⟩
    · rcases hseen with h | h
      · exact h
      · simp at h
    · intro h
      simp at h
    · intro _
      rfl
  | cons j rest ih =>
    intro newJ best hi hJ hjs hpw hdiag hdom hseen hacc
    have hjmem := hjs j (List.mem_cons_self _ _)
    have hjOK : diagOK s j = true := diagOK_of_mem_b2j hjmem
    have hiOK : diagOK s i = true := diagOK_head_of_mem hi hjmem
    obtain ⟨hpw1, hpw2⟩ := List.pairwise_cons.mp hpw
    simp only [smScanJs]
    set k := (if j = 0 then 0 else ((oldJ.lookup (j - 1)).getD 0)) + 1 with hk
    have hkj : k ≤ diagRun s j := by
      rw [diagRun_eq_of_ok hjOK]
      by_cases hz : j = 0
      · rw [hk, if_pos hz, if_pos hz]
      · rw [hk, if_neg hz, if_neg hz]
        have hb : ((oldJ.lookup (j - 1)).getD 0) ≤ diagRun s (j - 1) := by
          rcases lookup_getD_mem_or_zero oldJ (j - 1) with h0 | hmem
          · rw [h0]
            exact Nat.zero_le _
          · exact hJ.2.1 _ hmem
        omega
    have hki : k ≤ diagRun s i := by
      rw [diagRun_eq_of_ok hiOK]
      by_cases hz0 : i = 0
      · have hold0 : oldJ = [] := hJ.1 hz0
        rw [hk, hold0, if_pos hz0]
        by_cases hz : j = 0
        · rw [if_pos hz]
        · rw [if_neg hz]
          simp [List.lookup]
      · rw [if_neg hz0]
        obtain ⟨i', hii⟩ : ∃ i', i = i' + 1 := ⟨i - 1, by omega⟩
        have hi' : i - 1 = i' := by omega
        by_cases hz : j = 0
        · rw [hk, if_pos hz]
          omega
        · rw [hk, if_neg hz, hi']
          have hb : ((oldJ.lookup (j - 1)).getD 0) ≤ diagRun s i' := by
            rcases lookup_getD_mem_or_zero oldJ (j - 1) with h0 | hmem
            · rw [h0]
              exact Nat.zero_le _
            · exact hJ.2.2.1 _ hmem i' hii
          omega
    have hkeq : j = i → k = diagRun s i := by
      intro hji
      subst hji
      rw [diagRun_eq_of_ok hjOK]
      by_cases hz : j = 0
      · rw [hk, if_pos hz, if_pos hz]
      · rw [hk, if_neg hz, if_neg hz]
        have h4 := hJ.2.2.2
        rw [if_neg hz] at h4
        rw [h4]
    rcases Nat.lt_trichotomy j i with hlt | heq | hgt
    · -- j strictly left of the diagonal: dominated by the run at p = j < i
      have hnup : ¬(best.bs < k) := not_lt.mpr (le_trans hkj (hdom j hlt))
      rw [if_neg hnup]
      have hres := ih ((j, k) :: newJ) best hi hJ
        (fun j' hj' => hjs j' (List.mem_cons_of_mem _ hj')) hpw2 hdiag hdom
        (by
          rcases hseen with h | h
          · exact Or.inl h
          · rcases List.mem_cons.mp h with h | h
            · omega
            · exact Or.inr h)
        (by
          intro p hp
          rcases List.mem_cons.mp hp with hp | hp
          · rw [hp]
            exact ⟨hkj, hki, fun hji => absurd hji (by omega)⟩
          · exact hacc p hp)
      refine ⟨hres.1, hres.2.1, hres.2.2.1, hres.2.2.2.1, ?_, ?_⟩
      · intro hmem
        rcases List.mem_cons.mp hmem with h | h
        · omega
        · exact hres.2.2.2.2.1 h
      · intro hmem
        have hnr : i ∉ rest := fun h => hmem (List.mem_cons_of_mem _ h)
        rw [hres.2.2.2.2.2 hnr]
        have hij : (i == j) = false := by
          simp
          omega
        simp [List.lookup, hij]
    · -- the diagonal position itself: the only place the best can move
      subst heq
      have hkd : k = diagRun s j := hkeq rfl
      have hnotin : j ∉ rest := by
        intro h
        exact absurd (hpw1 j h) (lt_irrefl j)
      have hmain : ∀ best', best'.bi = best'.bj → diagRun s j ≤ best'.bs →
          (∀ p, p < j → diagRun s p ≤ best'.bs) →
          ((smScanJs j oldJ rest ((j, k) :: newJ) best').2.bi
            = (smScanJs j oldJ rest ((j, k) :: newJ) best').2.bj) ∧
          (∀ p, p < j → diagRun s p ≤ (smScanJs j oldJ rest ((j, k) :: newJ) best').2.bs) ∧
          (diagRun s j ≤ (smScanJs j oldJ rest ((j, k) :: newJ) best').2.bs) ∧
          (∀ p ∈ (smScanJs j oldJ rest ((j, k) :: newJ) best').1,
            p.2 ≤ diagRun s p.1 ∧ p.2 ≤ diagRun s j ∧ (p.1 = j → p.2 = diagRun s j)) ∧
          (((smScanJs j oldJ rest ((j, k) :: newJ) best').1.lookup j).getD 0
            = diagRun s j) := by
        intro best' hd' hs' hdom'
        have hres := ih ((j, k) :: newJ) best' hi hJ
          (fun j' hj' => hjs j' (List.mem_cons_of_mem _ hj')) hpw2 hd' hdom'
          (Or.inl hs')
          (by
            intro p hp
            rcases List.mem_cons.mp hp with hp | hp
            · rw [hp]
              exact ⟨hkj, le_of_eq hkd, fun _ => hkd⟩
            · exact hacc p hp)
        refine ⟨hres.1, hres.2.1, hres.2.2.1, hres.2.2.2.1, ?_⟩
        rw [hres.2.2.2.2.2 hnotin]
        simp [List.lookup, hkd]
      by_cases hup : best.bs < k
      · rw [if_pos hup]
        have h := hmain (SMBest.mk (j + 1 - k) (j + 1 - k) k) rfl
          (by dsimp only; omega) (fun p hp => le_trans (hdom p hp) (by dsimp only; omega))
        exact ⟨h.1, h.2.1, h.2.2.1, h.2.2.2.1, fun _ => h.2.2.2.2, fun hmem =>
          absurd (List.mem_cons_self _ _) hmem⟩
      · rw [if_neg hup]
        have h := hmain best hdiag (by omega) hdom
        exact ⟨h.1, h.2.1, h.2.2.1, h.2.2.2.1, fun _ => h.2.2.2.2, fun hmem =>
          absurd (List.mem_cons_self _ _) hmem⟩
    · -- j strictly right of the diagonal: the diagonal was seen earlier
      have hbs : diagRun s i ≤ best.bs := by
        rcases hseen with h | h
        · exact h
        · rcases List.mem_cons.mp h with h | h
          · omega
          · exact absurd (hpw1 i h) (by omega)
      have hnup : ¬(best.bs < k) := not_lt.mpr (le_trans hki hbs)
      rw [if_neg hnup]
      have hres := ih ((j, k) :: newJ) best hi hJ
        (fun j' hj' => hjs j' (List.mem_cons_of_mem _ hj')) hpw2 hdiag hdom
        (Or.inl hbs)
        (by
          intro p hp
          rcases List.mem_cons.mp hp with hp | hp
          · rw [hp]
            exact ⟨hkj, hki, fun hji => absurd hji (by omega)⟩
          · exact hacc p hp)
      refine ⟨hres.1, hres.2.1, hres.2.2.1, hres.2.2.2.1, ?_, ?_⟩
      · intro hmem
        rcases List.mem_cons.mp hmem with h | h
        · omega
        · exact hres.2.2.2.2.1 h
      · intro hmem
        have hnr : i ∉ rest := fun h => hmem (List.mem_cons_of_mem _ h)
        rw [hres.2.2.2.2.2 hnr]
        have hij : (i == j) = false := by
          simp
          omega
        simp [List.lookup, hij]

/-- Outer-loop invariant on `(s, s)`: the best block of the scan is always
diagonal. -/
theorem smScanIs_diag (s : List Char) (len : ℕ) :
    ∀ start j2len best,
    start + len ≤ s.length →
    smJDiag s start j2len →
    best.bi = best.bj →
    (∀ p, p < start → diagRun s p ≤ best.bs) →
    (smScanIs s s 0 s.length (List.range' start len) j2len best).bi
      = (smScanIs s s 0 s.length (List.range' start len) j2len best).bj := by
  induction len with
  | zero =>
    intro start j2len best _ _ hdiag _
    exact hdiag
  | succ len ih =>
    intro start j2len best hrange hJ hdiag hdom
    rw [List.range'_succ]
    simp only [smScanIs]
    have hstartlen : start < s.length := by omega
    set js := (b2j s (s.getD start ' ')).filter
      (fun j => decide (0 ≤ j) && decide (j < s.length)) with hjsdef
    have hjs : ∀ j ∈ js, j ∈ b2j s (s.getD start ' ') := by
      intro j hj
      exact (List.mem_filter.mp hj).1
    have hpw : js.Pairwise (· < ·) := (b2j_pairwise s _).filter _
    have hseen : diagRun s start ≤ best.bs ∨ start ∈ js := by
      by_cases hok : diagOK s start = true
      · right
        have hpop : isPopular s (s.getD start ' ') = false := by
          simp only [diagOK, Bool.and_eq_true, Bool.not_eq_true', decide_eq_true_eq] at hok
          exact hok.1
        refine List.mem_filter.mpr ⟨self_mem_b2j hstartlen hpop, ?_⟩
        simp [hstartlen]
      · left
        rw [diagRun_eq_zero (by simpa using hok)]
        exact Nat.zero_le _
    have hres := smScanJs_diag s start j2len js [] best hstartlen hJ hjs hpw
      hdiag hdom hseen (by intro p hp; simp at hp)
    refine ih (start + 1) _ _ (by omega) ?_ hres.1 ?_
    · refine ⟨by omega, ?_, ?_, ?_⟩
      · intro p hp
        exact (hres.2.2.2.1 p hp).1
      · intro p hp i' hii
        have : i' = start := by omega
        rw [this]
        exact (hres.2.2.2.1 p hp).2.1
      · have hsimp : start + 1 - 1 = start := by omega
        rw [hsimp, if_neg (by omega)]
        by_cases hmem : start ∈ js
        · exact hres.2.2.2.2.1 hmem
        · rw [hres.2.2.2.2.2 hmem]
          have hnok : diagOK s start = false := by
            by_cases hok : diagOK s start = true
            · exfalso
              apply hmem
              have hpop : isPopular s (s.getD start ' ') = false := by
                simp only [diagOK, Bool.and_eq_true, Bool.not_eq_true', decide_eq_true_eq] at hok
                exact hok.1
              refine List.mem_filter.mpr ⟨self_mem_b2j hstartlen hpop, ?_⟩
              simp [hstartlen]
            · simpa using hok
          rw [diagRun_eq_zero hnok]
          rfl
    · intro p hp
      by_cases hlt : p < start
      · exact hres.2.1 p hlt
      · have : p = start := by omega
        rw [this]
        exact hres.2.2.1

theorem smExtendLow_self (s : List Char) :
    ∀ fuel best, best.bi = best.bj → best.bi ≤ fuel →
    smExtendLow s s 0 0 best fuel = SMBest.mk 0 0 (best.bs + best.bi) := by
  intro fuel
  induction fuel with
  | zero =>
    intro best hd hf
    obtain ⟨bi, bj, bs⟩ := best
    simp only at hd hf
    have h0 : bi = 0 := by omega
    subst h0
    subst hd
    simp [smExtendLow]
  | succ fuel ihf =>
    intro best hd hf
    obtain ⟨bi, bj, bs⟩ := best
    simp only at hd hf
    subst hd
    simp only [smExtendLow]
    by_cases hz : bi = 0
    · subst hz
      rw [if_neg (by simp)]
      norm_num
    · rw [if_pos (⟨Nat.pos_of_ne_zero hz, Nat.pos_of_ne_zero hz, trivial⟩ :
        0 < bi ∧ 0 < bi ∧ True)]
      rw [ihf (SMBest.mk (bi - 1) (bi - 1) (bs + 1)) rfl (by dsimp only; omega)]
      dsimp only
      congr 1
      omega

theorem smExtendHigh_self (s : List Char) :
    ∀ fuel best, best.bi = 0 → best.bj = 0 → best.bs ≤ s.length →
    s.length ≤ best.bs + fuel →
    smExtendHigh s s s.length s.length best fuel = SMBest.mk 0 0 s.length := by
  intro fuel
  induction fuel with
  | zero =>
    intro best h1 h2 h3 h4
    obtain ⟨bi, bj, bs⟩ := best
    simp only at h1 h2 h3 h4
    subst h1
    subst h2
    have : bs = s.length := by omega
    subst this
    rfl
  | succ fuel ihf =>
    intro best h1 h2 h3 h4
    obtain ⟨bi, bj, bs⟩ := best
    simp only at h1 h2 h3 h4
    subst h1
    subst h2
    simp only [smExtendHigh]
    by_cases hz : bs = s.length
    · rw [if_neg (by simp; omega)]
      rw [hz]
    · rw [if_pos (⟨by omega, by omega, trivial⟩ :
        0 + bs < s.length ∧ 0 + bs < s.length ∧ True)]
      exact ihf (SMBest.mk 0 0 (bs + 1)) rfl rfl (by dsimp only; omega)
        (by dsimp only; omega)

/-- On identical inputs `find_longest_match` over the full window returns the
whole string as one diagonal block. -/
theorem findLongestMatch_self (s : List Char) :
    findLongestMatch s s 0 s.length 0 s.length = SMBest.mk 0 0 s.length := by
  unfold findLongestMatch
  have hJ0 : smJDiag s 0 [] := by
    refine ⟨fun _ => rfl, ?_, ?_, ?_⟩
    · intro p hp
      simp at hp
    · intro p hp
      simp at hp
    · simp [List.lookup]
  have hd := smScanIs_diag s (s.length - 0) 0 [] (SMBest.mk 0 0 0) (by omega) hJ0 rfl
    (fun p hp => absurd hp (Nat.not_lt_zero p))
  have hw := smScanIs_bounds s s 0 s.length 0 s.length (s.length - 0) 0 []
    (SMBest.mk 0 0 0) le_rfl (by omega) (by intro p hp; simp at hp)
    ⟨le_rfl, by simp, le_rfl, by simp⟩
  set best0 := smScanIs s s 0 s.length (List.range' 0 (s.length - 0)) [] (SMBest.mk 0 0 0)
    with hbest0
  clear_value best0
  obtain ⟨w1, w2, w3, w4⟩ := hw
  show smExtendHigh s s s.length s.length (smExtendLow s s 0 0 best0 best0.bi) s.length
    = SMBest.mk 0 0 s.length
  rw [smExtendLow_self s best0.bi best0 hd le_rfl]
  rw [smExtendHigh_self s s.length (SMBest.mk 0 0 (best0.bs + best0.bi)) rfl rfl
    (by dsimp only; omega) (by dsimp only; omega)]

theorem seqMatches_self (s : List Char) : seqMatches s s = s.length := by
  unfold seqMatches
  have h2 : s.length + s.length + 1 = (s.length + s.length) + 1 := rfl
  rw [h2]
  simp only [smMatchSum, findLongestMatch_self]
  by_cases hn : s.length = 0
  · simp [hn]
  · rw [if_neg (by simpa using hn)]
    rw [if_neg (by simp), if_neg (by simp)]
    omega

theorem seqRatioQ_self (s : List Char) : seqRatioQ s s = 1 := by
  unfold seqRatioQ
  by_cases hz : s.length + s.length = 0
  · rw [if_pos hz]
  · rw [if_neg hz, seqMatches_self, Rat.mkRat_eq_div]
    have hne : ((s.length : ℚ) + s.length) ≠ 0 := by
      intro h
      apply hz
      exact_mod_cast h
    rw [div_eq_one_iff_eq (by push_cast at hne ⊢; exact_mod_cast hne)]
    push_cast
    ring

theorem jaccardQ_self {ta : Finset String} (h : ta ≠ ∅) : jaccardQ ta ta = 1 := by
  unfold jaccardQ
  rw [if_pos (Or.inl h)]
  rw [Finset.inter_self, Finset.union_self]
  have hc : 1 ≤ ta.card := Finset.card_pos.mpr (Finset.nonempty_iff_ne_empty.mpr h)
  rw [max_eq_right hc, Rat.mkRat_eq_div]
  push_cast
  rw [div_self (Nat.cast_ne_zero.mpr (by omega))]

theorem jaccardQ_bounds (ta tb : Finset String) :
    0 ≤ jaccardQ ta tb ∧ jaccardQ ta tb ≤ 1 := by
  unfold jaccardQ
  by_cases h : ta ≠ ∅ ∨ tb ≠ ∅
  · rw [if_pos h, Rat.mkRat_eq_div]
    constructor
    · positivity
    · rw [div_le_one (by positivity)]
      have hcard : (ta ∩ tb).card ≤ max 1 (ta ∪ tb).card :=
        le_trans (Finset.card_le_card Finset.inter_subset_union) (le_max_right _ _)
      exact_mod_cast hcard
  · rw [if_neg h]
    norm_num

theorem blend_bounds (w1 w2 j r : ℚ) (hw1 : 0 ≤ w1) (hw2 : 0 ≤ w2) (hsum : w1 + w2 ≤ 1)
    (hj : 0 ≤ j ∧ j ≤ 1) (hr : 0 ≤ r ∧ r ≤ 1) :
    0 ≤ w1 * j + w2 * r ∧ w1 * j + w2 * r ≤ 1 := by
  constructor
  · have t1 := mul_nonneg hw1 hj.1
    have t2 := mul_nonneg hw2 hr.1
    linarith
  · have h1 : w1 * j ≤ w1 := mul_le_of_le_one_right hw1 hj.2
    have h2 : w2 * r ≤ w2 := mul_le_of_le_one_right hw2 hr.2
    linarith

/-- Claim C6 (amended).  Every similarity value lies in [0,1].
`topic_similarity`: sim("","") = 1, sim(x,"") = 0 for x non-empty after
stripping, and sim(x,x) = 1 for x that is non-empty after stripping and has
at least one normalized token (for token-less x the value is 0.4, see the
counterexample).  The retrieval engine's `_similarity`: sim(x,"") = 0 for
every x (including sim("","") = 0, not 1), and sim(x,x) = 1 for x with at
least one normalized token (0.35 for token-less x). -/
theorem similarity_bounded_and_reflexive_amended :
    (topicSimilarity "" "" = 1) ∧
    (∀ x, pyStrip x ≠ "" → topicSimilarity x "" = 0) ∧
    (∀ x, pyStrip x ≠ "" → simTokenize (pyStrip x) ≠ ∅ → topicSimilarity x x = 1) ∧
    (∀ x, qaSimilarity x "" = 0) ∧
    (∀ x, lowerStr (pyStrip x) ≠ "" → simTokenize (lowerStr (pyStrip x)) ≠ ∅ →
      qaSimilarity x x = 1) ∧
    (∀ x y, 0 ≤ topicSimilarity x y ∧ topicSimilarity x y ≤ 1) ∧
    (∀ x y, 0 ≤ qaSimilarity x y ∧ qaSimilarity x y ≤ 1) := by
  refine ⟨by decide, ?_, ?_, ?_, ?_, ?_, ?_⟩
  · intro x hx
    simp only [topicSimilarity]
    rw [if_neg (fun h => hx h.1), if_pos (Or.inr (show pyStrip "" = "" from rfl))]
  · intro x hx htok
    simp only [topicSimilarity]
    rw [if_neg (fun h => hx h.1), if_neg (fun h => h.elim hx hx)]
    rw [jaccardQ_self htok, seqRatioQ_self]
    rw [Rat.mkRat_eq_div, Rat.mkRat_eq_div]
    norm_num
  · intro x
    simp only [qaSimilarity]
    rw [if_pos (Or.inr (show lowerStr (pyStrip "") = "" from rfl))]
  · intro x hx htok
    simp only [qaSimilarity]
    rw [if_neg (fun h => h.elim hx hx)]
    rw [jaccardQ_self htok, seqRatioQ_self]
    rw [Rat.mkRat_eq_div, Rat.mkRat_eq_div]
    norm_num
  · intro x y
    simp only [topicSimilarity]
    by_cases h1 : pyStrip x = "" ∧ pyStrip y = ""
    · rw [if_pos h1]
      norm_num
    · rw [if_neg h1]
      by_cases h2 : pyStrip x = "" ∨ pyStrip y = ""
      · rw [if_pos h2]
        norm_num
      · rw [if_neg h2]
        exact blend_bounds _ _ _ _ (by rw [Rat.mkRat_eq_div]; norm_num)
          (by rw [Rat.mkRat_eq_div]; norm_num)
          (by rw [Rat.mkRat_eq_div, Rat.mkRat_eq_div]; norm_num)
          (jaccardQ_bounds _ _) (seqRatioQ_bounds _ _)
  · intro x y
    simp only [qaSimilarity]
    by_cases h2 : lowerStr (pyStrip x) = "" ∨ lowerStr (pyStrip y) = ""
    · rw [if_pos h2]
      norm_num
    · rw [if_neg h2]
      exact blend_bounds _ _ _ _ (by rw [Rat.mkRat_eq_div]; norm_num)
        (by rw [Rat.mkRat_eq_div]; norm_num)
        (by rw [Rat.mkRat_eq_div, Rat.mkRat_eq_div]; norm_num)
        (jaccardQ_bounds _ _) (seqRatioQ_bounds _ _)

/-- Claim C6 witness: both reflexivity statements at "hello world", the
empty-side statement at "zebra", and the bounds at a concrete pair. -/
theorem similarity_bounded_and_reflexive_amended_witness :
    topicSimilarity "hello world" "hello world" = 1 ∧
    qaSimilarity "hello world" "hello world" = 1 ∧
    topicSimilarity "zebra" "" = 0 ∧
    (0 ≤ topicSimilarity "abc" "abd" ∧ topicSimilarity "abc" "abd" ≤ 1) := by
  have h := similarity_bounded_and_reflexive_amended
  exact ⟨h.2.2.1 "hello world" (by decide) (by decide),
         h.2.2.2.2.1 "hello world" (by decide) (by decide),
         h.2.1 "zebra" (by decide),
         h.2.2.2.2.2.1 "abc" "abd"⟩

/-! ### qa_engine.py: retrieval (claim C5) -/

/-- Configuration of `QAEngine.__init__` (qa_engine.py:139-143) at the
environment defaults: 8 excerpts, minimum score 0.18, minimum context 40. -/
structure QAConfig where
  max_excerpts : ℕ := 8
  min_score : ℚ := mkRat 18 100
  min_context_chars : ℕ := 40

/-- Model of `_score_utterance` (qa_engine.py:95-106): the blended similarity,
boosted to the raw keyword-overlap ratio when both token sets are non-empty. -/
def scoreUtterance (question : String) (u : TranscriptUtterance) : ℚ :=
  let base := qaSimilarity question u.text
  let qt := simTokenize question
  let ut := simTokenize u.text
  if qt ≠ ∅ ∧ ut ≠ ∅ then
    max base (mkRat ((qt ∩ ut).card) (max 1 qt.card))
  else base

/-- Ascending enumeration of a finite set of positions (`sorted(idxs)`),
via insertion sort; the sorted list of a duplicate-free set is unique, so
this is well-defined on the multiset quotient and agrees with any sort. -/
def finsetAscList (s : Finset ℕ) : List ℕ :=
  Quot.liftOn s.val (fun l => List.insertionSort (· ≤ ·) l) fun _ _ h =>
    List.eq_of_perm_of_sorted
      ((List.perm_insertionSort _ _).trans (h.trans (List.perm_insertionSort _ _).symm))
      (List.sorted_insertionSort _ _) (List.sorted_insertionSort _ _)

/-- Candidate selection of `QAEngine.retrieve` (qa_engine.py:165-184): union
the last-300 windows of the index lists of the question tokens; on no index
hit (or an empty token set) fall back to scanning the whole log. -/
def retrieveCandidates (st : MeetingState) (question : String) :
    List (ℕ × TranscriptUtterance) :=
  let history := st.transcript_history
  let qt := simTokenize question
  let idxs : Finset ℕ :=
    qt.biUnion (fun tok => ((lookupD st.token_index tok []).rtake 300).toFinset)
  let cands :=
    if qt ≠ ∅ ∧ idxs ≠ ∅ then
      (finsetAscList idxs).filterMap
        (fun i => if h : i < history.length then some (i, history.get ⟨i, h⟩) else none)
    else []
  if cands.isEmpty then history.enum else cands

/-- Model of `QAEngine.retrieve` (qa_engine.py:156-207). -/
def retrieve (cfg : QAConfig) (st : MeetingState) (question : String) :
    List TranscriptUtterance :=
  let question := pyStrip question
  if question = "" then []
  else if st.transcript_history.isEmpty then []
  else
    let history := st.transcript_history
    let candidates := retrieveCandidates st question
    let scored := candidates.filterMap (fun p =>
      let s := scoreUtterance question p.2
      if s ≤ 0 then none else some (s, p.1, p.2))
    if scored.isEmpty then history.rtake (min 10 history.length)
    else
      let sorted := List.insertionSort
        (fun x y : ℚ × ℕ × TranscriptUtterance => y.1 ≤ x.1) scored
      let top := ((sorted.take cfg.max_excerpts).filter
        (fun x => cfg.min_score ≤ x.1)).map (fun x => x.2.2)
      if top.isEmpty then history.rtake (min 10 history.length)
      else
        let keys := top.map (fun u => (u.ts, u.speaker, u.text))
        history.filter (fun u => decide ((u.ts, u.speaker, u.text) ∈ keys))

theorem retrieveCandidates_snd_mem (st : MeetingState) (q : String) :
    ∀ p ∈ retrieveCandidates st q, p.2 ∈ st.transcript_history := by
  have henum : ∀ p : ℕ × TranscriptUtterance, p ∈ st.transcript_history.enum →
      p.2 ∈ st.transcript_history := by
    intro p hp
    obtain ⟨i, u⟩ := p
    exact List.getElem?_mem (List.mk_mem_enum_iff_getElem?.mp hp)
  have hfm : ∀ (js : List ℕ) (p : ℕ × TranscriptUtterance),
      p ∈ js.filterMap (fun i => if h : i < st.transcript_history.length
        then some (i, st.transcript_history.get ⟨i, h⟩) else none) →
      p.2 ∈ st.transcript_history := by
    intro js p hp
    obtain ⟨i, hi, hsome⟩ := List.mem_filterMap.mp hp
    by_cases h : i < st.transcript_history.length
    · rw [dif_pos h] at hsome
      injection hsome with hsome'
      rw [← hsome']
      exact List.get_mem _ _ _
    · rw [dif_neg h] at hsome
      exact absurd hsome (by simp)
  intro p hp
  unfold retrieveCandidates at hp
  simp only at hp
  split at hp
  · split at hp
    · exact henum p hp
    · exact hfm _ p hp
  · split at hp
    · exact henum p hp
    · simp at hp

theorem rtake_min_ne_nil {l : List TranscriptUtterance} (h : l ≠ []) :
    l.rtake (min 10 l.length) ≠ [] := by
  have hlen : 0 < l.length := List.length_pos.mpr h
  intro hnil
  have hlen2 := congrArg List.length hnil
  rw [List.rtake, List.length_drop] at hlen2
  simp at hlen2
  omega

/-- Claim C5.  For a non-empty question (after trimming) on a state with
non-empty history, retrieve never returns an empty list; and when every
candidate's score is below the minimum threshold (default 0.18), it returns
exactly the last `min(10, historyLength)` utterances, in log order. -/
theorem retrieve_nonempty_and_fallback (st : MeetingState) (question : String)
    (hq : pyStrip question ≠ "") (hh : st.transcript_history ≠ []) :
    retrieve {} st question ≠ [] ∧
    ((∀ p ∈ retrieveCandidates st (pyStrip question),
        scoreUtterance (pyStrip question) p.2 < ({} : QAConfig).min_score) →
      retrieve {} st question
        = st.transcript_history.rtake (min 10 st.transcript_history.length)) := by
  have hbool : ¬(st.transcript_history.isEmpty = true) := by
    simpa [List.isEmpty_iff] using hh
  constructor
  · simp only [retrieve]
    rw [if_neg hq, if_neg hbool]
    by_cases hs : (((retrieveCandidates st (pyStrip question)).filterMap (fun p =>
        if scoreUtterance (pyStrip question) p.2 ≤ 0 then none
        else some (scoreUtterance (pyStrip question) p.2, p.1, p.2))).isEmpty = true)
    · rw [if_pos hs]
      exact rtake_min_ne_nil hh
    · rw [if_neg hs]
      set scored := (retrieveCandidates st (pyStrip question)).filterMap (fun p =>
        if scoreUtterance (pyStrip question) p.2 ≤ 0 then none
        else some (scoreUtterance (pyStrip question) p.2, p.1, p.2)) with hscdef
      set sorted := List.insertionSort
        (fun x y : ℚ × ℕ × TranscriptUtterance => y.1 ≤ x.1) scored with hsodef
      by_cases htop : ((((sorted.take ({} : QAConfig).max_excerpts).filter
          (fun x => ({} : QAConfig).min_score ≤ x.1)).map (fun x => x.2.2)).isEmpty = true)
      · rw [if_pos htop]
        exact rtake_min_ne_nil hh
      · rw [if_neg htop]
        have hne : (((sorted.take ({} : QAConfig).max_excerpts).filter
            (fun x => ({} : QAConfig).min_score ≤ x.1)).map (fun x => x.2.2)) ≠ [] := by
          simpa [List.isEmpty_iff] using htop
        obtain ⟨u, hu⟩ := List.exists_mem_of_ne_nil _ hne
        obtain ⟨x, hx, rfl⟩ := List.mem_map.mp hu
        have hxs : x ∈ scored :=
          (List.mem_insertionSort _).mp (List.mem_of_mem_take (List.mem_filter.mp hx).1)
        obtain ⟨p, hpc, hpsome⟩ := List.mem_filterMap.mp hxs
        have hxp : x = (scoreUtterance (pyStrip question) p.2, p.1, p.2) := by
          by_cases hz : scoreUtterance (pyStrip question) p.2 ≤ 0
          · rw [if_pos hz] at hpsome
            exact absurd hpsome (by simp)
          · rw [if_neg hz] at hpsome
            injection hpsome with h'
            exact h'.symm
        have hmem : x.2.2 ∈ st.transcript_history := by
          rw [hxp]
          exact retrieveCandidates_snd_mem st (pyStrip question) p hpc
        apply List.ne_nil_of_mem (a := x.2.2)
        refine List.mem_filter.mpr ⟨hmem, ?_⟩
        simp only [decide_eq_true_eq]
        exact List.mem_map_of_mem _ hu
  · intro hall
    simp only [retrieve]
    rw [if_neg hq, if_neg hbool]
    by_cases hs : (((retrieveCandidates st (pyStrip question)).filterMap (fun p =>
        if scoreUtterance (pyStrip question) p.2 ≤ 0 then none
        else some (scoreUtterance (pyStrip question) p.2, p.1, p.2))).isEmpty = true)
    · rw [if_pos hs]
    · rw [if_neg hs]
      set scored := (retrieveCandidates st (pyStrip question)).filterMap (fun p =>
        if scoreUtterance (pyStrip question) p.2 ≤ 0 then none
        else some (scoreUtterance (pyStrip question) p.2, p.1, p.2)) with hscdef
      set sorted := List.insertionSort
        (fun x y : ℚ × ℕ × TranscriptUtterance => y.1 ≤ x.1) scored with hsodef
      have hfilter : ((sorted.take ({} : QAConfig).max_excerpts).filter
          (fun x => ({} : QAConfig).min_score ≤ x.1)) = [] := by
        rw [List.filter_eq_nil_iff]
        intro x hx
        have hxs : x ∈ scored :=
          (List.mem_insertionSort _).mp (List.mem_of_mem_take hx)
        obtain ⟨p, hpc, hpsome⟩ := List.mem_filterMap.mp hxs
        have hxp : x = (scoreUtterance (pyStrip question) p.2, p.1, p.2) := by
          by_cases hz : scoreUtterance (pyStrip question) p.2 ≤ 0
          · rw [if_pos hz] at hpsome
            exact absurd hpsome (by simp)
          · rw [if_neg hz] at hpsome
            injection hpsome with h'
            exact h'.symm
        have := hall p hpc
        rw [hxp]
        simp only [decide_eq_true_eq, not_le]
        exact this
      rw [hfilter]
      simp

/-- Claim C5 witness: on a two-utterance history sharing no tokens or
characters with the question "zebra", retrieval returns the full recency
fallback (all candidate scores are 0 < 0.18) and is non-empty. -/
theorem retrieve_nonempty_and_fallback_witness :
    (retrieve {} (appendFinalUtterance (appendFinalUtterance (freshMeeting "w" 0)
        "A" "mmmm nnnn" 1) "B" "qqqq rrrr" 2) "zebra" ≠ []) ∧
    retrieve {} (appendFinalUtterance (appendFinalUtterance (freshMeeting "w" 0)
        "A" "mmmm nnnn" 1) "B" "qqqq rrrr" 2) "zebra"
      = (appendFinalUtterance (appendFinalUtterance (freshMeeting "w" 0)
          "A" "mmmm nnnn" 1) "B" "qqqq rrrr" 2).transcript_history.rtake
          (min 10 (appendFinalUtterance (appendFinalUtterance (freshMeeting "w" 0)
            "A" "mmmm nnnn" 1) "B" "qqqq rrrr" 2).transcript_history.length) :=
  ⟨(retrieve_nonempty_and_fallback _ "zebra" (by decide) (by decide)).1,
   (retrieve_nonempty_and_fallback _ "zebra" (by decide) (by decide)).2 (by decide)⟩

/-! ### qa_engine.py QAEngine.answer: failure containment (claim C8) -/

/-- Model of `QAResult` (llm_client.py:27-30). -/
structure QAResult where
  answer : String
  confidence : ℚ
deriving DecidableEq

/-- Model of `QAResponse` (qa_engine.py:125-129). -/
structure QAResponse where
  answer : String
  confidence : ℚ
  used_excerpts : List String
deriving DecidableEq

/-- Front-trimming loop of `_format_excerpts` (qa_engine.py:119-121): drop
lines from the front until the joined block fits the budget. -/
def trimFront (maxChars : ℕ) : List String → List String
  | [] => []
  | l :: rest =>
    if maxChars < (String.intercalate "\n" (l :: rest)).length
    then trimFront maxChars rest
    else l :: rest

/-- Model of `_format_excerpts` (qa_engine.py:109-122). -/
def formatExcerpts (excerpts : List TranscriptUtterance) (maxChars : ℕ) : String :=
  let lines := excerpts.map (fun u => u.speaker ++ ": " ++ u.text)
  let joined := String.intercalate "\n" lines
  if joined.length ≤ maxChars then joined
  else String.intercalate "\n" (trimFront maxChars lines)

/-- Outcome of the inference call `client.answer_question`: a parsed result,
or an exception (upstream HTTP error or unparseable content,
llm_client.py:141-145 / llm_client.py:56-70). -/
inductive InferenceOutcome where
  | ok (res : QAResult)
  | err (msg : String)
deriving DecidableEq

/-- Model of `QAEngine.answer` (qa_engine.py:209-242).  `clientOk` is false
when `LLMClient()` construction raised (missing API key), which
`_client_or_none` (qa_engine.py:147-154) catches and turns into `none`.
`Except.error` models an exception escaping `answer` — there is no handler
around the inference call in `answer` nor in the `/qa` route
(main.py:271-287). -/
def answerQA (cfg : QAConfig) (enabled clientOk : Bool) (st : MeetingState)
    (question : String) (inference : InferenceOutcome) :
    Except String (Option QAResponse) :=
  if !enabled then Except.ok none
  else if !clientOk then
    Except.ok (some (QAResponse.mk "LLM isn't configured yet (set LLM_API_KEY)." 0 []))
  else
    let excerpts := retrieve cfg st question
    let etext := formatExcerpts excerpts 2200
    if (pyStrip etext).length < cfg.min_context_chars then
      Except.ok (some (QAResponse.mk
        "I haven't heard enough yet to answer that. Try again after a bit more context."
        (mkRat 1 10) []))
    else
      match inference with
      | InferenceOutcome.err e => Except.error e
      | InferenceOutcome.ok res =>
        let used := excerpts.map (fun u => u.speaker ++ ": " ++ u.text)
        let ans0 := pyStrip res.answer
        let ans := if ans0 = ""
          then "I don't have a clean answer yet based on what I've heard so far."
          else ans0
        Except.ok (some (QAResponse.mk ans res.confidence used))

/-- Claim C8 (amended).  A failure of the inference call (upstream error or
unparseable response) propagates out of `answer` as an exception — it is not
converted into an explicit result; the missing-API-key configuration error,
by contrast, is caught at client construction and returned to the caller as
an explicit result with a human-readable message and confidence 0.0. -/
theorem qa_answer_error_handling_amended (cfg : QAConfig) (st : MeetingState)
    (question : String) (e : String) (outcome : InferenceOutcome) :
    (¬((pyStrip (formatExcerpts (retrieve cfg st question) 2200)).length
        < cfg.min_context_chars) →
      answerQA cfg true true st question (InferenceOutcome.err e) = Except.error e) ∧
    (answerQA cfg true false st question outcome
      = Except.ok (some (QAResponse.mk "LLM isn't configured yet (set LLM_API_KEY)." 0 [])) ∧
      "LLM isn't configured yet (set LLM_API_KEY)." ≠ "") := by
  constructor
  · intro hctx
    simp only [answerQA]
    rw [if_neg (by simp), if_neg (by simp), if_neg hctx]
  · refine ⟨?_, by decide⟩
    simp only [answerQA]
    rw [if_neg (by simp), if_pos (by simp)]

set_option maxRecDepth 100000 in
/-- Claim C8 counterexample: on a state with ample context, an upstream
inference failure escapes `answer` as an exception instead of becoming an
explicit confidence-0 result, while the missing-API-key configuration error
yields an explicit confidence-0 result instead of a hard failure — the
opposite of the claimed containment. -/
theorem qa_answer_error_containment_counterexample :
    answerQA {} true true
      (appendFinalUtterance (appendFinalUtterance (freshMeeting "q" 0)
        "Alice" "we went over the quarterly budget numbers and the hiring plan" 1)
        "Bob" "marketing spend will increase next quarter according to plan" 2)
      "what was said about the budget" (InferenceOutcome.err "LLM error 500: upstream")
      = Except.error "LLM error 500: upstream" ∧
    answerQA {} true false
      (appendFinalUtterance (appendFinalUtterance (freshMeeting "q" 0)
        "Alice" "we went over the quarterly budget numbers and the hiring plan" 1)
        "Bob" "marketing spend will increase next quarter according to plan" 2)
      "what was said about the budget" (InferenceOutcome.err "LLM error 500: upstream")
      = Except.ok (some (QAResponse.mk "LLM isn't configured yet (set LLM_API_KEY)." 0 [])) := by
  constructor
  · simp only [answerQA]
    rw [if_neg (by simp), if_neg (by simp), if_neg (by decide)]
  · simp only [answerQA]
    rw [if_neg (by simp), if_pos (by simp)]

set_option maxRecDepth 100000 in
/-- Claim C8 witness for the amended theorem, at the same concrete state. -/
theorem qa_answer_error_handling_amended_witness :
    answerQA {} true true
      (appendFinalUtterance (appendFinalUtterance (freshMeeting "q" 0)
        "Alice" "we went over the quarterly budget numbers and the hiring plan" 1)
        "Bob" "marketing spend will increase next quarter according to plan" 2)
      "what was said about the budget" (InferenceOutcome.err "boom")
      = Except.error "boom" ∧
    answerQA {} true false
      (appendFinalUtterance (appendFinalUtterance (freshMeeting "q" 0)
        "Alice" "we went over the quarterly budget numbers and the hiring plan" 1)
        "Bob" "marketing spend will increase next quarter according to plan" 2)
      "what was said about the budget" (InferenceOutcome.ok (QAResult.mk "fine" 1))
      = Except.ok (some (QAResponse.mk "LLM isn't configured yet (set LLM_API_KEY)." 0 [])) :=
  ⟨(qa_answer_error_handling_amended {} _ _ "boom"
      (InferenceOutcome.ok (QAResult.mk "fine" 1))).1 (by decide),
   ((qa_answer_error_handling_amended {} _ _ "boom"
      (InferenceOutcome.ok (QAResult.mk "fine" 1))).2).1⟩

end Zoomer
